import Mathlib

/-!
Shallow embedding of `src/balloc.c`, the boot-time physical-memory range
allocator.

The red-black tree library used by the C file (`rb_link`, `rb_insert`,
`rb_erase`, `rb_prev`, `rb_next`, `rb_leftmost`) is not part of the source
under verification.  Per the specification an `rb_tree` here is an
ordered-by-`begin` collection of ranges supporting in-order neighbour
traversal, so a tree is represented by its in-order node sequence, and the
BST descents of the C code become positional scans of that sequence:

* the insertion descent of `__balloc_add_range` (equal keys go left) places
  the new node immediately before the first node whose `begin` is not less
  than the inserted `from`;
* the search descent of `__balloc_remove_range` and `__balloc_alloc`
  (record and go left when `node->end > from`, else go right) finds the
  first in-order node whose `end` exceeds `from` (in-order `end` values are
  increasing whenever the set invariant holds).

`unsigned long long` / `uintptr_t` values are modelled as `Nat` with an
explicit `% 2 ^ 64` at every C operation that can wrap (the sum
`addr + size`, the mask arithmetic of the alignment computation and the
`entry->addr + entry->length` sum of the memory-map parser).  Comparisons
and assignments in the C code involve no other arithmetic.
-/

/-- Size of the `unsigned long long` / `uintptr_t` value space. -/
def u64M : Nat := 2 ^ 64

/-- Payload of `struct memory_node`: one tracked range `[begin, end)`.
The intrusive tree/list links of the C structure are represented by the
node's position in the in-order sequence. -/
structure memory_node where
  begin : Nat
  end_ : Nat
deriving DecidableEq

/-- Modelled from the spec: an `rb_tree` keyed by `begin` is represented by
its in-order node sequence (the rb-tree library is not under `src/`). -/
abbrev rb_tree := List memory_node

/-- Does some stored range of the tree cover address `x`? -/
def covers (tree : rb_tree) (x : Nat) : Bool :=
  tree.any fun n => decide (n.begin ≤ x ∧ x < n.end_)

/-- Relation between in-order neighbours in a well-formed interval set:
the predecessor ends strictly before the successor begins (stored ranges
are disjoint and non-adjacent). -/
def ranges_gap (a b : memory_node) : Prop := a.end_ < b.begin

instance : DecidableRel ranges_gap :=
  fun a b => inferInstanceAs (Decidable (a.end_ < b.begin))

/-- The interval-set invariant: in-order neighbours are separated by a gap
and every stored range is non-empty. -/
def tree_inv (tree : rb_tree) : Prop :=
  List.Chain' ranges_gap tree ∧ ∀ n ∈ tree, n.begin < n.end_

/-- Weak variant of the invariant that also admits empty `[x, x)` ranges
(degenerate `__balloc_add_range` calls with `from = to` can create these). -/
def tree_winv (tree : rb_tree) : Prop :=
  List.Chain' ranges_gap tree ∧ ∀ n ∈ tree, n.begin ≤ n.end_

/-- Executable check for the neighbour-gap chain, used to decide the
invariant on concrete sets. -/
def chainB : List memory_node → Bool
  | [] => true
  | [_] => true
  | a :: b :: l => decide (a.end_ < b.begin) && chainB (b :: l)

theorem chainB_iff : ∀ l : List memory_node,
    chainB l = true ↔ List.Chain' ranges_gap l
  | [] => by simp [chainB]
  | [a] => by simp [chainB]
  | a :: b :: l => by
    rw [chainB, List.chain'_cons, Bool.and_eq_true, decide_eq_true_iff,
      chainB_iff (b :: l)]
    exact Iff.rfl

instance (l : rb_tree) : Decidable (tree_inv l) :=
  decidable_of_iff (chainB l = true ∧ ∀ n ∈ l, n.begin < n.end_)
    (by rw [chainB_iff]; exact Iff.rfl)

instance (l : rb_tree) : Decidable (tree_winv l) :=
  decidable_of_iff (chainB l = true ∧ ∀ n ∈ l, n.begin ≤ n.end_)
    (by rw [chainB_iff]; exact Iff.rfl)

/-- Predecessor absorption step of `__balloc_add_range` (lines 71-79 of
balloc.c): if the in-order predecessor of the freshly inserted node touches
or overlaps it (`prev->end >= new->begin`), widen the new node over it and
erase it. `left` is the part of the tree before the new node. -/
def absorb_prev (left : List memory_node) (n : memory_node) :
    List memory_node × memory_node :=
  match left.getLast? with
  | some prev =>
    if prev.end_ ≥ n.begin then
      (left.dropLast, ⟨prev.begin, if prev.end_ > n.end_ then prev.end_ else n.end_⟩)
    else (left, n)
  | none => (left, n)

/-- Successor absorption step of `__balloc_add_range` (lines 81-87 of
balloc.c): if the in-order successor starts at or before the new node's end
(`next->begin <= new->end`), take over its end (the C code assigns
`new->end = next->end` unconditionally) and erase it. `right` is the part
of the tree after the new node. -/
def absorb_next (right : List memory_node) (n : memory_node) :
    List memory_node × memory_node :=
  match right with
  | next :: rest =>
    if next.begin ≤ n.end_ then (rest, ⟨n.begin, next.end_⟩) else (right, n)
  | [] => (right, n)

/-- Body of `__balloc_add_range` after the insertion descent: `left`/`right`
are the parts of the tree before/after the freshly linked `[from, to)`
node; absorb the in-order predecessor, then the in-order successor. -/
def add_core (left right : List memory_node) (f t : Nat) : rb_tree :=
  let p := absorb_prev left ⟨f, t⟩
  let q := absorb_next right p.2
  p.1 ++ q.2 :: q.1

/-- `__balloc_add_range(tree, from, to)`: allocate a node for `[from, to)`,
link it at its `begin`-ordered position (the descent routes equal keys
left, so it lands immediately before the first node with `begin ≥ from`),
then absorb the in-order predecessor and successor. -/
def __balloc_add_range (tree : rb_tree) (f t : Nat) : rb_tree :=
  add_core (tree.takeWhile fun x => decide (x.begin < f))
    (tree.dropWhile fun x => decide (x.begin < f)) f t

/-- The erase-and-trim loop of `__balloc_remove_range` (lines 107-118 of
balloc.c).  `acc` is the part of the tree before the node the walk is
standing on; the walk continues at the in-order successor captured before
each erasure, and the surviving fragments re-inserted through
`__balloc_add_range` always land before that successor (they are carved
out of the node just erased), hence the re-insertion into `acc`. -/
def remove_loop (f t : Nat) : rb_tree → List memory_node → rb_tree
  | acc, [] => acc
  | acc, ptr :: rest =>
    if ptr.begin < t then
      let acc1 := if ptr.begin < f then __balloc_add_range acc ptr.begin f else acc
      let acc2 := if ptr.end_ > t then __balloc_add_range acc1 t ptr.end_ else acc1
      remove_loop f t acc2 rest
    else acc ++ ptr :: rest

/-- `__balloc_remove_range(tree, from, to)`: find the first node whose `end`
exceeds `from`, then erase every node with `begin < to`, re-inserting the
sub-ranges that survive on either side of `[from, to)`. -/
def __balloc_remove_range (tree : rb_tree) (f t : Nat) : rb_tree :=
  remove_loop f t (tree.takeWhile fun x => decide (x.end_ ≤ f))
    (tree.dropWhile fun x => decide (x.end_ ≤ f))

/-- The C expression `align - 1` on `unsigned long long` (wraps to
`2^64 - 1` when `align = 0`). -/
def align_mask (align : Nat) : Nat := (align + (u64M - 1)) % u64M

/-- The C expression `(b + mask) & ~mask` on `unsigned long long`: the sum
wraps modulo `2^64` and `~mask` is the 64-bit complement of the mask. -/
def aligned_addr (b align : Nat) : Nat :=
  ((b + align_mask align) % u64M) &&& (u64M - 1 - align_mask align)

/-- The candidate walk of `__balloc_alloc` (lines 139-157 of balloc.c).
`acc` is the part of the free tree before the node the walk is standing
on.  On success the chosen node is erased and its leading and trailing
remainders are re-inserted into the whole remaining tree. -/
def alloc_loop (size align f t : Nat) : rb_tree → List memory_node → Nat × rb_tree
  | acc, [] => (t, acc)
  | acc, ptr :: rest =>
    if ptr.begin < t then
      let b := if ptr.begin > f then ptr.begin else f
      let e := if ptr.end_ < t then ptr.end_ else t
      let addr := aligned_addr b align
      if (addr + size) % u64M ≤ e then
        let rem := acc ++ rest
        let r1 := if ptr.begin < addr then __balloc_add_range rem ptr.begin addr else rem
        let r2 := if ptr.end_ > (addr + size) % u64M then
            __balloc_add_range r1 ((addr + size) % u64M) ptr.end_
          else r1
        (addr, r2)
      else alloc_loop size align f t (acc ++ [ptr]) rest
    else (t, acc ++ ptr :: rest)

/-- `__balloc_alloc(size, align, from, to)`: first-fit search of the free
tree (passed explicitly here; the C code reads the global `free_ranges`).
Returns the chosen address, or the sentinel `to` on failure, together with
the updated free tree. -/
def __balloc_alloc (size align f t : Nat) (free_ranges : rb_tree) : Nat × rb_tree :=
  alloc_loop size align f t (free_ranges.takeWhile fun x => decide (x.end_ ≤ f))
    (free_ranges.dropWhile fun x => decide (x.end_ ≤ f))

/-- `balloc_alloc(size, from, to)`: the convenience entry point selecting
the alignment from the size. -/
def balloc_alloc (size f t : Nat) (free_ranges : rb_tree) : Nat × rb_tree :=
  let align := if size ≤ 8 then 8 else if size ≤ 16 then 16 else if size ≤ 32 then 32 else 64
  __balloc_alloc size align f t free_ranges

/-- `balloc_free(begin, end)`: return a range to the free tree. -/
def balloc_free (b e : Nat) (free_ranges : rb_tree) : rb_tree :=
  __balloc_add_range free_ranges b e

/-- Modelled from the spec: one boot memory-map entry, reduced to the
`(address, length, type)` triple the boot-map collaborator supplies
(the packed multiboot buffer walk is abstracted as a list of entries). -/
structure mboot_mmap_entry where
  addr : Nat
  length : Nat
  type : Nat
deriving DecidableEq

/-- The C expression `entry->addr + entry->length` on `unsigned long long`
(wraps modulo `2^64`). -/
def mmap_entry_end (e : mboot_mmap_entry) : Nat := (e.addr + e.length) % u64M

/-- `balloc_parse_mmap`: seed both trees with every reported entry and the
kernel image, then remove every non-available entry, the boot module range
(modelled from the spec: `initramfs` supplies the `(first, second)` pair)
and the kernel image from the free tree.  Returns
`(memory_map, free_ranges)`. -/
def balloc_parse_mmap (entries : List mboot_mmap_entry)
    (kbegin kend module_first module_second : Nat) : rb_tree × rb_tree :=
  let seeded := entries.foldl
    (fun (st : rb_tree × rb_tree) e =>
      (__balloc_add_range st.1 e.addr (mmap_entry_end e),
       __balloc_add_range st.2 e.addr (mmap_entry_end e)))
    ([], [])
  let memory_map := __balloc_add_range seeded.1 kbegin kend
  let free0 := __balloc_add_range seeded.2 kbegin kend
  let free1 := entries.foldl
    (fun fr e => if e.type ≠ 1 then __balloc_remove_range fr e.addr (mmap_entry_end e) else fr)
    free0
  let free2 := __balloc_remove_range free1 module_first module_second
  let free3 := __balloc_remove_range free2 kbegin kend
  (memory_map, free3)

/-- Condition under which the successor absorption of `__balloc_add_range`
cannot cut the inserted range short: no stored range that the inserted
`[f, t)` would absorb ends strictly below `t`. -/
def add_no_truncation (l : rb_tree) (f t : Nat) : Prop :=
  ∀ r ∈ l, f ≤ r.begin → r.begin ≤ t → t ≤ r.end_

instance (l : rb_tree) (f t : Nat) : Decidable (add_no_truncation l f t) :=
  inferInstanceAs (Decidable (∀ r ∈ l, f ≤ r.begin → r.begin ≤ t → t ≤ r.end_))

/-- One public mutator call on an interval set (the tree argument of
`__balloc_add_range` / `__balloc_remove_range`). -/
inductive balloc_set_op where
  | add_call (f t : Nat)
  | remove_call (f t : Nat)
deriving DecidableEq

/-- The precondition the spec states for each mutator:
`add_range` requires `from < to`, `remove_range` requires `from ≤ to`. -/
def op_ok : balloc_set_op → Prop
  | .add_call f t => f < t
  | .remove_call f t => f ≤ t

instance : DecidablePred op_ok := fun o =>
  match o with
  | .add_call f t => inferInstanceAs (Decidable (f < t))
  | .remove_call f t => inferInstanceAs (Decidable (f ≤ t))

/-- Apply one mutator call to an interval set. -/
def apply_set_op (l : rb_tree) : balloc_set_op → rb_tree
  | .add_call f t => __balloc_add_range l f t
  | .remove_call f t => __balloc_remove_range l f t

/-- Run a sequence of mutator calls starting from the empty set. -/
def run_set_ops (ops : List balloc_set_op) : rb_tree :=
  ops.foldl apply_set_op []

/-! ### The node pool

The C file backs every tree node by one of `BALLOC_MAX_RANGES` statically
allocated `balloc_nodes` slots; unused slots sit on the intrusive
`balloc_free_list`.  To account for the slots the trees are replayed here
with each node paired with the index of its backing slot, and the free
list is the list of indices it holds, front first.  `BUG_ON` (pool
exhaustion in `balloc_alloc_node`) is modelled by returning `none`. -/

/-- `BALLOC_MAX_RANGES`: capacity of the static node pool. -/
def BALLOC_MAX_RANGES : Nat := 128

/-- The `balloc_free_list`: indices of the pool slots currently free,
front of the intrusive list first. -/
abbrev node_pool := List Nat

/-- A tree whose nodes carry the index of the pool slot backing them,
in in-order sequence. -/
abbrev pooled_tree := List (Nat × memory_node)

/-- `balloc_alloc_node`: pop the front of the free list; the C code hits
`BUG_ON` when the list is empty, modelled as `none`. -/
def balloc_alloc_node (pool : node_pool) : Option (Nat × node_pool) :=
  match pool with
  | [] => none
  | i :: rest => some (i, rest)

/-- `balloc_free_node`: `list_add` pushes the slot at the front of the
free list. -/
def balloc_free_node (i : Nat) (pool : node_pool) : node_pool := i :: pool

/-- `balloc_setup_nodes`: start from the empty list and push
`&balloc_nodes[i]` for `i = 0, …, 127` in order (so slot 127 ends up at
the front). -/
def balloc_setup_nodes : node_pool :=
  (List.range BALLOC_MAX_RANGES).foldl (fun l i => balloc_free_node i l) []

/-- Slot-tracking version of the predecessor absorption of
`__balloc_add_range`: the absorbed predecessor's slot is pushed back on
the free list. -/
def absorb_prev_p (left : pooled_tree) (n : Nat × memory_node)
    (pool : node_pool) : pooled_tree × (Nat × memory_node) × node_pool :=
  match left.getLast? with
  | some prev =>
    if prev.2.end_ ≥ n.2.begin then
      (left.dropLast,
       (n.1, ⟨prev.2.begin, if prev.2.end_ > n.2.end_ then prev.2.end_ else n.2.end_⟩),
       balloc_free_node prev.1 pool)
    else (left, n, pool)
  | none => (left, n, pool)

/-- Slot-tracking version of the successor absorption of
`__balloc_add_range`. -/
def absorb_next_p (right : pooled_tree) (n : Nat × memory_node)
    (pool : node_pool) : pooled_tree × (Nat × memory_node) × node_pool :=
  match right with
  | next :: rest =>
    if next.2.begin ≤ n.2.end_ then
      (rest, (n.1, ⟨n.2.begin, next.2.end_⟩), balloc_free_node next.1 pool)
    else (right, n, pool)
  | [] => (right, n, pool)

/-- Slot-tracking `__balloc_add_range`: allocate a slot for the new node
first (the C code calls `balloc_alloc_node` before any absorption), then
absorb the in-order predecessor and successor, returning their slots. -/
def add_range_p (tree : pooled_tree) (pool : node_pool) (f t : Nat) :
    Option (pooled_tree × node_pool) :=
  match balloc_alloc_node pool with
  | none => none
  | some (i, pool1) =>
    let p := absorb_prev_p (tree.takeWhile fun x => decide (x.2.begin < f))
      (i, ⟨f, t⟩) pool1
    let q := absorb_next_p (tree.dropWhile fun x => decide (x.2.begin < f))
      p.2.1 p.2.2
    some (p.1 ++ q.2.1 :: q.1, q.2.2)

/-- Slot-tracking erase-and-trim loop of `__balloc_remove_range`; note the
C ordering: both fragment re-insertions (each drawing a slot from the
pool) happen before the erased node's slot is released. -/
def remove_loop_p (f t : Nat) : pooled_tree → pooled_tree → node_pool →
    Option (pooled_tree × node_pool)
  | acc, [], pool => some (acc, pool)
  | acc, ptr :: rest, pool =>
    if ptr.2.begin < t then
      match (if ptr.2.begin < f then add_range_p acc pool ptr.2.begin f
             else some (acc, pool)) with
      | none => none
      | some (acc1, pool1) =>
        match (if ptr.2.end_ > t then add_range_p acc1 pool1 t ptr.2.end_
               else some (acc1, pool1)) with
        | none => none
        | some (acc2, pool2) =>
          remove_loop_p f t acc2 rest (balloc_free_node ptr.1 pool2)
    else some (acc ++ ptr :: rest, pool)

/-- Slot-tracking `__balloc_remove_range`. -/
def remove_range_p (tree : pooled_tree) (pool : node_pool) (f t : Nat) :
    Option (pooled_tree × node_pool) :=
  remove_loop_p f t (tree.takeWhile fun x => decide (x.2.end_ ≤ f))
    (tree.dropWhile fun x => decide (x.2.end_ ≤ f)) pool

/-- The candidate address of one `__balloc_alloc` loop iteration:
`b = ptr->begin > from ? ptr->begin : from`, `addr = (b + mask) & ~mask`. -/
def alloc_cand_addr (f align : Nat) (ptr : Nat × memory_node) : Nat :=
  aligned_addr (if ptr.2.begin > f then ptr.2.begin else f) align

/-- The clipped end of one `__balloc_alloc` loop iteration:
`e = ptr->end < to ? ptr->end : to`. -/
def alloc_cand_end (t : Nat) (ptr : Nat × memory_node) : Nat :=
  if ptr.2.end_ < t then ptr.2.end_ else t

/-- Success branch of the `__balloc_alloc` loop: erase the chosen node,
re-insert both remainders (each drawing a slot from the pool), and only
then release the chosen node's slot, as in the C code. -/
def alloc_success_p (size : Nat) (acc rest : pooled_tree) (pool : node_pool)
    (ptr : Nat × memory_node) (addr : Nat) :
    Option (Nat × pooled_tree × node_pool) :=
  match (if ptr.2.begin < addr then
           add_range_p (acc ++ rest) pool ptr.2.begin addr
         else some (acc ++ rest, pool)) with
  | none => none
  | some (r1, pool1) =>
    match (if ptr.2.end_ > (addr + size) % u64M then
             add_range_p r1 pool1 ((addr + size) % u64M) ptr.2.end_
           else some (r1, pool1)) with
    | none => none
    | some (r2, pool2) => some (addr, r2, balloc_free_node ptr.1 pool2)

/-- Slot-tracking candidate walk of `__balloc_alloc`. -/
def alloc_loop_p (size align f t : Nat) : pooled_tree → pooled_tree → node_pool →
    Option (Nat × pooled_tree × node_pool)
  | acc, [], pool => some (t, acc, pool)
  | acc, ptr :: rest, pool =>
    if ptr.2.begin < t then
      if (alloc_cand_addr f align ptr + size) % u64M ≤ alloc_cand_end t ptr then
        alloc_success_p size acc rest pool ptr (alloc_cand_addr f align ptr)
      else alloc_loop_p size align f t (acc ++ [ptr]) rest pool
    else some (t, acc ++ ptr :: rest, pool)

/-- Slot-tracking `__balloc_alloc`. -/
def alloc_p (size align f t : Nat) (free_ranges : pooled_tree)
    (pool : node_pool) : Option (Nat × pooled_tree × node_pool) :=
  alloc_loop_p size align f t
    (free_ranges.takeWhile fun x => decide (x.2.end_ ≤ f))
    (free_ranges.dropWhile fun x => decide (x.2.end_ ≤ f)) pool

/-- The global allocator state: the pool free list and the two trees
(`memory_map`, the "known" tree, and `free_ranges`). -/
structure balloc_state where
  pool : node_pool
  memory_map : pooled_tree
  free_ranges : pooled_tree
deriving DecidableEq

/-- One public call that mutates the allocator state: an
`__balloc_add_range` on either tree (`balloc_free` is `add_free` on the
free tree), an `__balloc_remove_range` on the free tree, or an
`__balloc_alloc`.  `balloc_parse_mmap` performs a fixed sequence of
exactly these calls (see `balloc_parse_mmap_ops`). -/
inductive balloc_op where
  | add_known (f t : Nat)
  | add_free (f t : Nat)
  | remove_free (f t : Nat)
  | alloc_free (size align f t : Nat)
deriving DecidableEq

/-- Apply one public call; `none` when the call hits the pool-exhaustion
`BUG_ON`. -/
def apply_op (st : balloc_state) : balloc_op → Option balloc_state
  | .add_known f t =>
    match add_range_p st.memory_map st.pool f t with
    | none => none
    | some (tr, pool) => some ⟨pool, tr, st.free_ranges⟩
  | .add_free f t =>
    match add_range_p st.free_ranges st.pool f t with
    | none => none
    | some (tr, pool) => some ⟨pool, st.memory_map, tr⟩
  | .remove_free f t =>
    match remove_range_p st.free_ranges st.pool f t with
    | none => none
    | some (tr, pool) => some ⟨pool, st.memory_map, tr⟩
  | .alloc_free size align f t =>
    match alloc_p size align f t st.free_ranges st.pool with
    | none => none
    | some (_, tr, pool) => some ⟨pool, st.memory_map, tr⟩

/-- The state right after `balloc_setup_nodes`: full free list, both
trees empty. -/
def init_state : balloc_state := ⟨balloc_setup_nodes, [], []⟩

/-- Thread one public call through an optional state (a failed `BUG_ON`
aborts the run). -/
def step_ops (ost : Option balloc_state) (op : balloc_op) : Option balloc_state :=
  match ost with
  | none => none
  | some st => apply_op st op

/-- Run a sequence of public calls from the freshly initialised pool. -/
def run_ops (ops : List balloc_op) : Option balloc_state :=
  ops.foldl step_ops (some init_state)

/-- Where every pool slot lives: on the free list, in the known tree, or
in the free tree. -/
def state_nodes (st : balloc_state) : List Nat :=
  st.pool ++ st.memory_map.map Prod.fst ++ st.free_ranges.map Prod.fst

/-- The exact sequence of public calls `balloc_parse_mmap` makes: seed
both trees with every entry and with the kernel image, then remove every
non-available entry, the boot-module range and the kernel image from the
free tree. -/
def balloc_parse_mmap_ops (entries : List mboot_mmap_entry)
    (kbegin kend module_first module_second : Nat) : List balloc_op :=
  (entries.map fun e => [balloc_op.add_known e.addr (mmap_entry_end e),
                         balloc_op.add_free e.addr (mmap_entry_end e)]).flatten
    ++ [.add_known kbegin kend, .add_free kbegin kend]
    ++ (entries.filterMap fun e =>
        if e.type ≠ 1 then some (balloc_op.remove_free e.addr (mmap_entry_end e))
        else none)
    ++ [.remove_free module_first module_second, .remove_free kbegin kend]

/-! ### Basic facts about coverage and the invariant -/

theorem covers_iff (l : rb_tree) (x : Nat) :
    covers l x = true ↔ ∃ n ∈ l, n.begin ≤ x ∧ x < n.end_ := by
  simp [covers]

theorem covers_append (l m : rb_tree) (x : Nat) :
    covers (l ++ m) x = (covers l x || covers m x) := by
  simp [covers, List.any_append]

theorem covers_cons (a : memory_node) (l : rb_tree) (x : Nat) :
    covers (a :: l) x = (decide (a.begin ≤ x ∧ x < a.end_) || covers l x) := by
  simp [covers]

theorem covers_nil (x : Nat) : covers [] x = false := rfl

theorem covers_singleton (a : memory_node) (x : Nat) :
    covers [a] x = decide (a.begin ≤ x ∧ x < a.end_) := by
  simp [covers]

theorem winv_of_inv {l : rb_tree} (h : tree_inv l) : tree_winv l :=
  ⟨h.1, fun n hn => Nat.le_of_lt (h.2 n hn)⟩

theorem winv_tail {a : memory_node} {l : rb_tree} (h : tree_winv (a :: l)) :
    tree_winv l :=
  ⟨h.1.tail, fun n hn => h.2 n (List.mem_cons_of_mem a hn)⟩

theorem winv_head_gap {a : memory_node} {l : rb_tree} (h : tree_winv (a :: l)) :
    ∀ b ∈ l, a.end_ < b.begin := by
  induction l generalizing a with
  | nil => simp
  | cons c l ih =>
    intro b hb
    have hac : a.end_ < c.begin := (List.chain'_cons'.mp h.1).1 c rfl
    rcases List.mem_cons.mp hb with rfl | hb
    · exact hac
    · have hcb := ih (winv_tail h) b hb
      have hcc : c.begin ≤ c.end_ := h.2 c (by simp)
      omega

theorem winv_append_parts {l m : rb_tree} (h : tree_winv (l ++ m)) :
    tree_winv l ∧ tree_winv m ∧ ∀ x ∈ l.getLast?, ∀ y ∈ m.head?, ranges_gap x y := by
  obtain ⟨h1, h2, h3⟩ := List.chain'_append.mp h.1
  exact ⟨⟨h1, fun n hn => h.2 n (by simp [hn])⟩,
    ⟨h2, fun n hn => h.2 n (by simp [hn])⟩, h3⟩

theorem winv_append_build {l m : rb_tree} (hl : tree_winv l) (hm : tree_winv m)
    (hgap : ∀ x ∈ l.getLast?, ∀ y ∈ m.head?, ranges_gap x y) :
    tree_winv (l ++ m) := by
  refine ⟨List.chain'_append.mpr ⟨hl.1, hm.1, hgap⟩, ?_⟩
  intro n hn
  rcases List.mem_append.mp hn with h | h
  exacts [hl.2 n h, hm.2 n h]

/-! ### The insertion/search splits of the in-order sequence -/

theorem mem_dropWhile_begin {l : rb_tree} {f : Nat} (h : tree_winv l) :
    ∀ x ∈ l.dropWhile (fun n => decide (n.begin < f)), f ≤ x.begin := by
  induction l with
  | nil => simp
  | cons a l ih =>
    intro x hx
    by_cases ha : a.begin < f
    · rw [List.dropWhile_cons_of_pos (by simpa using ha)] at hx
      exact ih (winv_tail h) x hx
    · rw [List.dropWhile_cons_of_neg (by simpa using ha)] at hx
      rcases List.mem_cons.mp hx with rfl | hx
      · omega
      · have h1 := winv_head_gap h x hx
        have h2 : a.begin ≤ a.end_ := h.2 a (by simp)
        omega

theorem mem_dropWhile_end {l : rb_tree} {f : Nat} (h : tree_winv l) :
    ∀ x ∈ l.dropWhile (fun n => decide (n.end_ ≤ f)), f < x.end_ := by
  induction l with
  | nil => simp
  | cons a l ih =>
    intro x hx
    by_cases ha : a.end_ ≤ f
    · rw [List.dropWhile_cons_of_pos (by simpa using ha)] at hx
      exact ih (winv_tail h) x hx
    · rw [List.dropWhile_cons_of_neg (by simpa using ha)] at hx
      rcases List.mem_cons.mp hx with rfl | hx
      · omega
      · have h1 := winv_head_gap h x hx
        have h2 : x.begin ≤ x.end_ := h.2 x (by simp [hx])
        omega

theorem takeWhile_eq_of_split {p : memory_node → Bool} {L R : List memory_node}
    (hL : ∀ x ∈ L, p x = true) (hR : ∀ x ∈ R, p x = false) :
    (L ++ R).takeWhile p = L ∧ (L ++ R).dropWhile p = R := by
  induction L with
  | nil =>
    simp only [List.nil_append]
    cases R with
    | nil => simp
    | cons r R' =>
      rw [List.takeWhile_cons_of_neg (by simp [hR r (by simp)]),
        List.dropWhile_cons_of_neg (by simp [hR r (by simp)])]
      exact ⟨rfl, rfl⟩
  | cons a L' ih =>
    have ha := hL a (by simp)
    obtain ⟨ih1, ih2⟩ := ih fun x hx => hL x (by simp [hx])
    rw [List.cons_append, List.takeWhile_cons_of_pos ha,
      List.dropWhile_cons_of_pos ha, ih1, ih2]
    exact ⟨rfl, rfl⟩

/-! ### Description of one `__balloc_add_range` call -/

theorem add_core_desc (L R : List memory_node) (f t : Nat) :
    ∃ L1 R1 n m,
      add_core L R f t = L1 ++ n :: R1 ∧
      ((L1 = L ∧ n.begin = f ∧ m = t ∧ ∀ x ∈ L.getLast?, x.end_ < f)
        ∨ (∃ prev, L = L1 ++ [prev] ∧ n.begin = prev.begin ∧ f ≤ prev.end_ ∧
            m = max prev.end_ t)) ∧
      ((R1 = R ∧ n.end_ = m ∧ ∀ x ∈ R.head?, m < x.begin)
        ∨ (∃ next, R = next :: R1 ∧ next.begin ≤ m ∧ n.end_ = next.end_)) := by
  rcases List.eq_nil_or_concat L with rfl | ⟨L', prev, rfl⟩
  · cases R with
    | nil =>
      refine ⟨[], [], ⟨f, t⟩, t, ?_, ?_, ?_⟩
      · simp [add_core, absorb_prev, absorb_next]
      · left; simp
      · left; simp
    | cons next R' =>
      by_cases hn : next.begin ≤ t
      · refine ⟨[], R', ⟨f, next.end_⟩, t, ?_, ?_, ?_⟩
        · simp [add_core, absorb_prev, absorb_next, hn]
        · left; simp
        · right; exact ⟨next, rfl, hn, rfl⟩
      · refine ⟨[], next :: R', ⟨f, t⟩, t, ?_, ?_, ?_⟩
        · simp [add_core, absorb_prev, absorb_next, hn]
        · left; simp
        · left; simpa using by omega
  · simp only [List.concat_eq_append]
    by_cases hp : f ≤ prev.end_
    · have hrw : (if prev.end_ > t then prev.end_ else t) = max prev.end_ t := by
        split <;> omega
      cases R with
      | nil =>
        refine ⟨L', [], ⟨prev.begin, max prev.end_ t⟩, max prev.end_ t, ?_, ?_, ?_⟩
        · simp [add_core, absorb_prev, absorb_next, List.getLast?_concat,
            List.dropLast_concat, hp, hrw]
        · right; exact ⟨prev, rfl, rfl, hp, rfl⟩
        · left; simp
      | cons next R' =>
        by_cases hn : next.begin ≤ max prev.end_ t
        · refine ⟨L', R', ⟨prev.begin, next.end_⟩, max prev.end_ t, ?_, ?_, ?_⟩
          · simp [add_core, absorb_prev, absorb_next, List.getLast?_concat,
              List.dropLast_concat, hp, hrw, hn]
          · right; exact ⟨prev, rfl, rfl, hp, rfl⟩
          · right; exact ⟨next, rfl, hn, rfl⟩
        · refine ⟨L', next :: R', ⟨prev.begin, max prev.end_ t⟩, max prev.end_ t,
            ?_, ?_, ?_⟩
          · simp [add_core, absorb_prev, absorb_next, List.getLast?_concat,
              List.dropLast_concat, hp, hrw, hn]
          · right; exact ⟨prev, rfl, rfl, hp, rfl⟩
          · left; simpa using by omega
    · cases R with
      | nil =>
        refine ⟨L' ++ [prev], [], ⟨f, t⟩, t, ?_, ?_, ?_⟩
        · simp [add_core, absorb_prev, absorb_next, List.getLast?_concat,
            List.dropLast_concat, hp]
        · left; simpa [List.getLast?_concat] using by omega
        · left; simp
      | cons next R' =>
        by_cases hn : next.begin ≤ t
        · refine ⟨L' ++ [prev], R', ⟨f, next.end_⟩, t, ?_, ?_, ?_⟩
          · simp [add_core, absorb_prev, absorb_next, List.getLast?_concat,
              List.dropLast_concat, hp, hn]
          · left; simpa [List.getLast?_concat] using by omega
          · right; exact ⟨next, rfl, hn, rfl⟩
        · refine ⟨L' ++ [prev], next :: R', ⟨f, t⟩, t, ?_, ?_, ?_⟩
          · simp [add_core, absorb_prev, absorb_next, List.getLast?_concat,
              List.dropLast_concat, hp, hn]
          · left; simpa [List.getLast?_concat] using by omega
          · left; simpa using by omega

theorem ranges_gap_iff (a b : memory_node) : ranges_gap a b ↔ a.end_ < b.begin :=
  Iff.rfl

theorem add_range_split (l : rb_tree) (f t : Nat) (hw : tree_winv l) :
    ∃ L R, l = L ++ R ∧ __balloc_add_range l f t = add_core L R f t ∧
      (∀ x ∈ L, x.begin < f) ∧ (∀ x ∈ R, f ≤ x.begin) := by
  refine ⟨l.takeWhile (fun x => decide (x.begin < f)),
    l.dropWhile (fun x => decide (x.begin < f)),
    (List.takeWhile_append_dropWhile ..).symm, rfl, ?_, ?_⟩
  · intro x hx; simpa using List.mem_takeWhile_imp hx
  · exact mem_dropWhile_begin hw

theorem add_range_spec (l : rb_tree) (f t : Nat) (hw : tree_winv l) (hft : f ≤ t) :
    tree_winv (__balloc_add_range l f t) ∧
    (∀ x, covers l x = true → covers (__balloc_add_range l f t) x = true) ∧
    (∀ x, covers (__balloc_add_range l f t) x = true →
      covers l x = true ∨ (f ≤ x ∧ x < t)) ∧
    (add_no_truncation l f t →
      ∀ x, f ≤ x → x < t → covers (__balloc_add_range l f t) x = true) ∧
    ((∀ n ∈ l, n.begin < n.end_) → f < t →
      ∀ n ∈ __balloc_add_range l f t, n.begin < n.end_) := by
  obtain ⟨L, R, hlr, heq, hL, hR⟩ := add_range_split l f t hw
  obtain ⟨L1, R1, n, m, hres, hleft, hright⟩ := add_core_desc L R f t
  subst hlr
  rw [heq, hres]
  obtain ⟨hwL, hwR, hgapLR⟩ := winv_append_parts hw
  -- facts from the left absorption case split
  have hsubL : ∀ x ∈ L1, x ∈ L := by
    rcases hleft with ⟨rfl, _⟩ | ⟨prev, hLp, _⟩
    · exact fun x hx => hx
    · intro x hx; rw [hLp]; exact List.mem_append_left _ hx
  have hwL1 : tree_winv L1 := by
    rcases hleft with ⟨rfl, _⟩ | ⟨prev, hLp, _⟩
    · exact hwL
    · rw [hLp] at hwL; exact (winv_append_parts hwL).1
  have hnbf : n.begin ≤ f := by
    rcases hleft with ⟨_, h, _⟩ | ⟨prev, hLp, h, _⟩
    · omega
    · have : prev.begin < f := hL prev (by rw [hLp]; simp)
      omega
  have hgapL1n : ∀ x ∈ L1.getLast?, ranges_gap x n := by
    rcases hleft with ⟨rfl, hnb, _, hlast⟩ | ⟨prev, hLp, hnb, _⟩
    · intro x hx
      rw [ranges_gap_iff, hnb]
      exact hlast x hx
    · intro x hx
      rw [hLp] at hwL
      have := (List.chain'_append.mp hwL.1).2.2 x hx prev (by simp)
      rw [ranges_gap_iff, hnb]
      exact this
  have hmt : t ≤ m := by
    rcases hleft with ⟨_, _, h, _⟩ | ⟨prev, _, _, _, h⟩ <;> omega
  have hfm : f ≤ m := le_trans hft hmt
  -- facts from the right absorption case split
  have hsubR : ∀ x ∈ R1, x ∈ R := by
    rcases hright with ⟨rfl, _⟩ | ⟨next, hRn, _⟩
    · exact fun x hx => hx
    · intro x hx; rw [hRn]; exact List.mem_cons_of_mem _ hx
  have hchR1 : List.Chain' ranges_gap R1 := by
    rcases hright with ⟨rfl, _⟩ | ⟨next, hRn, _⟩
    · exact hwR.1
    · rw [hRn] at hwR; exact hwR.1.tail
  have hgapnR1 : ∀ y ∈ R1.head?, ranges_gap n y := by
    rcases hright with ⟨rfl, hne, hhead⟩ | ⟨next, hRn, hnext, hne⟩
    · intro y hy
      rw [ranges_gap_iff, hne]
      exact hhead y hy
    · intro y hy
      rw [hRn] at hwR
      have := (List.chain'_cons'.mp hwR.1).1 y hy
      rw [ranges_gap_iff, hne]
      exact this
  -- gap between the absorbed predecessor and successor, when both exist
  have hprevnext : ∀ prev next, L = L1 ++ [prev] → R = next :: R1 →
      prev.end_ < next.begin := by
    intro prev next hLp hRn
    have := hgapLR prev (by rw [hLp]; simp [List.getLast?_concat]) next (by rw [hRn]; rfl)
    exact this
  -- the merged node's end bound used for exactness
  have hnet : add_no_truncation (L ++ R) f t → t ≤ n.end_ := by
    intro hnt
    rcases hright with ⟨_, hne, _⟩ | ⟨next, hRn, hnext, hne⟩
    · omega
    · have hmem : next ∈ L ++ R := by rw [hRn]; exact List.mem_append_right _ (by simp)
      have hfn : f ≤ next.begin := hR next (by rw [hRn]; simp)
      have hnbt : next.begin ≤ t := by
        rcases hleft with ⟨_, _, hm, _⟩ | ⟨prev, hLp, _, _, hm⟩
        · omega
        · have := hprevnext prev next hLp hRn
          omega
      have := hnt next hmem hfn hnbt
      omega
  -- the merged node's own bounds
  have hnbe : n.begin ≤ n.end_ := by
    rcases hright with ⟨_, hne, _⟩ | ⟨next, hRn, hnext, hne⟩
    · omega
    · have hfn : f ≤ next.begin := hR next (by rw [hRn]; simp)
      have hnn : next.begin ≤ next.end_ := hwR.2 next (by rw [hRn]; simp)
      omega
  have hnprop : (∀ x ∈ L ++ R, x.begin < x.end_) → f < t → n.begin < n.end_ := by
    intro hprop hft'
    rcases hright with ⟨_, hne, _⟩ | ⟨next, hRn, hnext, hne⟩
    · omega
    · have hfn : f ≤ next.begin := hR next (by rw [hRn]; simp)
      have hnn : next.begin < next.end_ :=
        hprop next (List.mem_append_right _ (by rw [hRn]; simp))
      omega
  -- absorbed elements lie inside the merged node
  have hin : ∀ el ∈ L ++ R, (el ∈ L1 ∨ el ∈ R1) ∨
      (n.begin ≤ el.begin ∧ el.end_ ≤ n.end_) := by
    intro el hel
    rcases List.mem_append.mp hel with helL | helR
    · rcases hleft with ⟨rfl, _⟩ | ⟨prev, hLp, hnb, hpf, _⟩
      · exact Or.inl (Or.inl helL)
      · rw [hLp] at helL
        rcases List.mem_append.mp helL with h | h
        · exact Or.inl (Or.inl h)
        · have hpe : el = prev := by simpa using h
          subst hpe
          right
          constructor
          · omega
          · rcases hright with ⟨_, hne, _⟩ | ⟨next, hRn, hnext, hne⟩
            · omega
            · have := hprevnext el next hLp hRn
              have : next.begin ≤ next.end_ := hwR.2 next (by rw [hRn]; simp)
              omega
    · rcases hright with ⟨rfl, _⟩ | ⟨next, hRn, hnext, hne⟩
      · exact Or.inl (Or.inr helR)
      · rw [hRn] at helR
        rcases List.mem_cons.mp helR with h | h
        · subst h
          right
          have hfn : f ≤ el.begin := hR el (by rw [hRn]; simp)
          constructor <;> omega
        · exact Or.inl (Or.inr h)
  -- addresses of the merged node were covered before or lie in [f, t)
  have hout : ∀ x, n.begin ≤ x → x < n.end_ →
      covers (L ++ R) x = true ∨ (f ≤ x ∧ x < t) := by
    intro x hx1 hx2
    rcases hleft with ⟨rfl, hnb, hm, _⟩ | ⟨prev, hLp, hnb, hpf, hm⟩
    · rcases hright with ⟨rfl, hne, _⟩ | ⟨next, hRn, hnext, hne⟩
      · right; omega
      · by_cases hxt : x < t
        · right; omega
        · left
          rw [covers_iff]
          refine ⟨next, by rw [hRn]; exact List.mem_append_right _ (by simp), by omega⟩
    · have hprevmem : prev ∈ L ++ R := List.mem_append_left _ (by rw [hLp]; simp)
      by_cases hxp : x < prev.end_
      · left
        rw [covers_iff]
        exact ⟨prev, hprevmem, by omega⟩
      · rcases hright with ⟨rfl, hne, _⟩ | ⟨next, hRn, hnext, hne⟩
        · right; omega
        · by_cases hxt : x < t
          · right; omega
          · left
            rw [covers_iff]
            refine ⟨next, by rw [hRn]; exact List.mem_append_right _ (by simp), by omega⟩
  -- assemble the five conjuncts
  refine ⟨?_, ?_, ?_, ?_, ?_⟩
  · refine winv_append_build hwL1 ?_ ?_
    case refine_2 =>
      intro x hx y hy
      have hyn : n = y := by simpa using hy
      subst hyn
      exact hgapL1n x hx
    refine ⟨List.chain'_cons'.mpr ⟨hgapnR1, hchR1⟩, ?_⟩
    intro x hx
    rcases List.mem_cons.mp hx with rfl | hx
    · exact hnbe
    · exact hwR.2 x (hsubR x hx)
  · intro x hx
    rw [covers_iff] at hx
    obtain ⟨el, hel, hcov⟩ := hx
    rcases hin el hel with (h | h) | h
    · rw [covers_iff]
      exact ⟨el, List.mem_append_left _ h, hcov⟩
    · rw [covers_iff]
      exact ⟨el, List.mem_append_right _ (List.mem_cons_of_mem _ h), hcov⟩
    · rw [covers_iff]
      exact ⟨n, List.mem_append_right _ (by simp), by omega⟩
  · intro x hx
    rw [covers_iff] at hx
    obtain ⟨el, hel, hcov⟩ := hx
    rcases List.mem_append.mp hel with h | h
    · left
      rw [covers_iff]
      exact ⟨el, List.mem_append_left _ (hsubL el h), hcov⟩
    · rcases List.mem_cons.mp h with rfl | h
      · exact hout x hcov.1 hcov.2
      · left
        rw [covers_iff]
        exact ⟨el, List.mem_append_right _ (hsubR el h), hcov⟩
  · intro hnt x hfx hxt
    have := hnet hnt
    rw [covers_iff]
    exact ⟨n, List.mem_append_right _ (by simp), by omega⟩
  · intro hprop hft' x hx
    rcases List.mem_append.mp hx with h | h
    · exact hprop x (List.mem_append_left _ (hsubL x h))
    · rcases List.mem_cons.mp h with rfl | h
      · exact hnprop hprop hft'
      · exact hprop x (List.mem_append_right _ (hsubR x h))

theorem winv_cross {l m : rb_tree} (h : tree_winv (l ++ m)) :
    ∀ x ∈ l, ∀ y ∈ m, x.end_ < y.begin := by
  induction l with
  | nil => simp
  | cons a l ih =>
    intro x hx y hy
    rcases List.mem_cons.mp hx with rfl | hx
    · exact winv_head_gap h y (List.mem_append_right _ hy)
    · exact ih (winv_tail h) x hx y hy

/-- With the set invariant, fragments re-inserted into the already-visited
part of the tree end up appended at its end with no coalescing. -/
theorem add_range_middle (A B : rb_tree) (f t : Nat)
    (hA : ∀ x ∈ A, x.begin < f)
    (hAlast : ∀ x ∈ A.getLast?, x.end_ < f)
    (hB : ∀ x ∈ B, f ≤ x.begin)
    (hBhead : ∀ x ∈ B.head?, t < x.begin) :
    __balloc_add_range (A ++ B) f t = A ++ ⟨f, t⟩ :: B := by
  obtain ⟨ht, hd⟩ := takeWhile_eq_of_split (p := fun n => decide (n.begin < f))
    (fun x hx => by simpa using hA x hx)
    (fun x hx => by simpa using Nat.not_lt.mpr (hB x hx))
  have heq : __balloc_add_range (A ++ B) f t = add_core A B f t := by
    unfold __balloc_add_range
    rw [ht, hd]
  rw [heq]
  obtain ⟨L1, R1, n, m, hres, hleft, hright⟩ := add_core_desc A B f t
  rcases hleft with ⟨hL1, hnb, hm, _⟩ | ⟨prev, hLp, _, hpf, _⟩
  · rcases hright with ⟨hR1, hne, _⟩ | ⟨next, hRn, hnext, _⟩
    · have hn : n = ⟨f, t⟩ := by
        cases n
        simp only [memory_node.mk.injEq]
        constructor
        · exact hnb
        · simp only [] at hne
          omega
      rw [hres, hL1, hR1, hn]
    · exfalso
      have := hBhead next (by rw [hRn]; rfl)
      omega
  · exfalso
    have := hAlast prev (by rw [hLp]; simp [List.getLast?_concat])
    omega

theorem remove_loop_stop (f t : Nat) (acc : rb_tree) (B : List memory_node)
    (h : ∀ x ∈ B.head?, ¬ x.begin < t) :
    remove_loop f t acc B = acc ++ B := by
  cases B with
  | nil => simp [remove_loop]
  | cons b B' =>
    unfold remove_loop
    rw [if_neg (h b rfl)]

theorem remove_range_split (l : rb_tree) (f t : Nat) (hw : tree_winv l) :
    ∃ A B, l = A ++ B ∧
      __balloc_remove_range l f t = remove_loop f t A B ∧
      (∀ x ∈ A, x.end_ ≤ f) ∧ (∀ x ∈ B, f < x.end_) := by
  refine ⟨l.takeWhile (fun x => decide (x.end_ ≤ f)),
    l.dropWhile (fun x => decide (x.end_ ≤ f)),
    (List.takeWhile_append_dropWhile ..).symm, rfl, ?_, ?_⟩
  · intro x hx; simpa using List.mem_takeWhile_imp hx
  · exact mem_dropWhile_end hw

theorem getLast?_mem' {l : List memory_node} {a : memory_node}
    (h : a ∈ l.getLast?) : a ∈ l := by
  rcases List.eq_nil_or_concat l with rfl | ⟨l', b, rfl⟩
  · simp at h
  · have hba : b = a := by
      simpa [List.concat_eq_append, List.getLast?_concat] using h
    subst hba
    simp [List.concat_eq_append]

theorem head?_mem' {l : List memory_node} {a : memory_node}
    (h : a ∈ l.head?) : a ∈ l := by
  cases l with
  | nil => simp at h
  | cons b l' =>
    have hba : b = a := by simpa using h
    subst hba
    simp

theorem covers_lt_of_end_le {l : rb_tree} {f x : Nat}
    (hb : ∀ a ∈ l, a.end_ ≤ f) (h : covers l x = true) : x < f := by
  rw [covers_iff] at h
  obtain ⟨el, hel, h2⟩ := h
  have := hb el hel
  omega

theorem covers_gt_of_begin_gt {l : rb_tree} {t x : Nat}
    (hb : ∀ a ∈ l, t < a.begin) (h : covers l x = true) : t < x := by
  rw [covers_iff] at h
  obtain ⟨el, hel, h2⟩ := h
  have := hb el hel
  omega

theorem remove_loop_spec (f t : Nat) (hft : f < t) (B : List memory_node) :
    ∀ acc : rb_tree, tree_winv (acc ++ B) → (∀ x ∈ acc, x.end_ ≤ f) →
      (∀ x ∈ B, f < x.end_) →
      tree_winv (remove_loop f t acc B) ∧
      (∀ x, covers (remove_loop f t acc B) x = true ↔
        (covers (acc ++ B) x = true ∧ ¬(f ≤ x ∧ x < t))) ∧
      ((∀ n ∈ acc ++ B, n.begin < n.end_) →
        ∀ n ∈ remove_loop f t acc B, n.begin < n.end_) := by
  induction B with
  | nil =>
    intro acc hw hacc _
    simp only [remove_loop, List.append_nil] at *
    refine ⟨hw, ?_, fun hp => hp⟩
    intro x
    constructor
    · intro h
      have := covers_lt_of_end_le hacc h
      exact ⟨h, by omega⟩
    · exact fun h => h.1
  | cons ptr rest ih =>
    intro acc hw hacc hB
    have hptr_end : f < ptr.end_ := hB ptr (by simp)
    have hrest_end : ∀ x ∈ rest, f < x.end_ := fun x hx => hB x (by simp [hx])
    have hcross : ∀ x ∈ acc, x.end_ < ptr.begin := fun x hx =>
      winv_cross hw x hx ptr (by simp)
    have hwB : tree_winv (ptr :: rest) := (winv_append_parts hw).2.1
    have hwacc : tree_winv acc := (winv_append_parts hw).1
    have hwrest : tree_winv rest := winv_tail hwB
    have hptr_gap : ∀ y ∈ rest, ptr.end_ < y.begin := winv_head_gap hwB
    have hbounds : ∀ n ∈ acc ++ ptr :: rest, n.begin ≤ n.end_ := hw.2
    have hptrbe : ptr.begin ≤ ptr.end_ := hbounds ptr (by simp)
    have hacc_begin : ∀ x ∈ acc, x.begin < ptr.begin := by
      intro x hx
      have h1 := hcross x hx
      have h2 := hbounds x (List.mem_append_left _ hx)
      omega
    have hcovacc : ∀ x, covers acc x = true → x < f := fun x h =>
      covers_lt_of_end_le hacc h
    have hcovrest : ∀ x, covers rest x = true → ptr.end_ < x := fun x h =>
      covers_gt_of_begin_gt hptr_gap h
    by_cases hpt : ptr.begin < t
    case neg =>
      rw [remove_loop_stop f t acc (ptr :: rest)
        (by intro x hx; have hx' : ptr = x := by simpa using hx
            subst hx'; exact hpt)]
      refine ⟨hw, ?_, fun hp => hp⟩
      intro x
      constructor
      · intro h
        refine ⟨h, ?_⟩
        rw [covers_append, Bool.or_eq_true, covers_cons, Bool.or_eq_true] at h
        rcases h with h | h | h
        · have := hcovacc x h
          omega
        · rw [decide_eq_true_iff] at h
          omega
        · have := hcovrest x h
          omega
      · exact fun h => h.1
    case pos =>
      -- the loop body runs for this node
      have hstep : remove_loop f t acc (ptr :: rest) =
          remove_loop f t
            (if ptr.end_ > t then
              __balloc_add_range
                (if ptr.begin < f then __balloc_add_range acc ptr.begin f else acc)
                t ptr.end_
              else if ptr.begin < f then __balloc_add_range acc ptr.begin f else acc)
            rest := by
        rw [remove_loop]
        rw [if_pos hpt]
      -- the re-inserted leading fragment and the resulting visited prefix
      have hacc1 :
          (if ptr.begin < f then __balloc_add_range acc ptr.begin f else acc) =
            acc ++ (if ptr.begin < f then [(⟨ptr.begin, f⟩ : memory_node)] else []) := by
        by_cases hbf : ptr.begin < f
        · rw [if_pos hbf, if_pos hbf]
          have := add_range_middle acc [] ptr.begin f
            (fun x hx => hacc_begin x hx)
            (fun x hx => hcross x (getLast?_mem' hx))
            (by simp) (by simp)
          simpa using this
        · rw [if_neg hbf, if_neg hbf, List.append_nil]
      set F1 : rb_tree := if ptr.begin < f then [(⟨ptr.begin, f⟩ : memory_node)] else []
        with hF1
      have hF1node : ∀ n ∈ F1, n.begin = ptr.begin ∧ n.end_ = f ∧ ptr.begin < f := by
        rw [hF1]
        split
        next hbf' =>
          intro n hn
          have hn' : n = (⟨ptr.begin, f⟩ : memory_node) := by simpa using hn
          subst hn'
          exact ⟨rfl, rfl, hbf'⟩
        next => simp
      have hF1cov : ∀ x, covers F1 x = true ↔
          (ptr.begin < f ∧ ptr.begin ≤ x ∧ x < f) := by
        intro x
        rw [hF1]
        split
        next hbf' =>
          rw [covers_singleton]
          simp only [decide_eq_true_iff]
          omega
        next hbf' =>
          simp only [covers, List.any_nil, Bool.false_eq_true, false_iff]
          omega
      have hF1prop : ∀ n ∈ F1, n.begin < n.end_ := by
        intro n hn
        have := hF1node n hn
        omega
      have haccF1 : ∀ x ∈ acc ++ F1, x.end_ ≤ f := by
        intro x hx
        rcases List.mem_append.mp hx with h | h
        · exact hacc x h
        · have := hF1node x h
          omega
      have haccF1bt : ∀ x ∈ acc ++ F1, x.begin < t := by
        intro x hx
        rcases List.mem_append.mp hx with h | h
        · have := hacc_begin x h
          omega
        · have := hF1node x h
          omega
      have hwaccF1 : tree_winv (acc ++ F1) := by
        refine winv_append_build hwacc ⟨?_, ?_⟩ ?_
        · rw [hF1]; split <;> simp
        · intro n hn
          have := hF1node n hn
          omega
        · intro x hx y hy
          have hy' := head?_mem' hy
          have h1 := hcross x (getLast?_mem' hx)
          have h2 := hF1node y hy'
          rw [ranges_gap_iff]
          omega
      by_cases het : ptr.end_ > t
      · -- trailing fragment: the loop then stops at the captured successor
        rw [hstep, if_pos het, hacc1]
        have hacc2 : __balloc_add_range (acc ++ F1) t ptr.end_ =
            (acc ++ F1) ++ [(⟨t, ptr.end_⟩ : memory_node)] := by
          have := add_range_middle (acc ++ F1) [] t ptr.end_
            (fun x hx => haccF1bt x hx)
            (fun x hx => by have := haccF1 x (getLast?_mem' hx); omega)
            (by simp) (by simp)
          simpa using this
        rw [hacc2]
        rw [remove_loop_stop f t _ rest
          (by intro x hx
              have hx' := head?_mem' hx
              have := hptr_gap x hx'
              omega)]
        -- final shape: acc ++ F1 ++ [⟨t, ptr.end_⟩] ++ rest
        have hwfin : tree_winv (((acc ++ F1) ++ [⟨t, ptr.end_⟩]) ++ rest) := by
          refine winv_append_build ?_ hwrest ?_
          · refine winv_append_build hwaccF1 ⟨by simp, ?_⟩ ?_
            · intro n hn
              have hn' : n = (⟨t, ptr.end_⟩ : memory_node) := by simpa using hn
              subst hn'
              simpa using Nat.le_of_lt het
            · intro x hx y hy
              have hy' : (⟨t, ptr.end_⟩ : memory_node) = y := by simpa using hy
              subst hy'
              have := haccF1 x (getLast?_mem' hx)
              rw [ranges_gap_iff]
              show x.end_ < t
              omega
          · intro x hx y hy
            have hx' : (⟨t, ptr.end_⟩ : memory_node) = x := by
              simpa [List.getLast?_concat] using hx
            subst hx'
            have := hptr_gap y (head?_mem' hy)
            rw [ranges_gap_iff]
            show ptr.end_ < y.begin
            omega
        refine ⟨hwfin, ?_, ?_⟩
        · intro x
          rw [covers_append, covers_append, covers_append, covers_append,
            covers_cons, covers_cons, covers_nil]
          simp only [Bool.or_false, Bool.or_eq_true, decide_eq_true_iff,
            show (⟨t, ptr.end_⟩ : memory_node).begin = t from rfl,
            show (⟨t, ptr.end_⟩ : memory_node).end_ = ptr.end_ from rfl]
          have h1 := hcovacc x
          have h2 := hcovrest x
          have h3 := hF1cov x
          constructor
          · rintro (((hc | hc) | hc) | hc)
            · exact ⟨Or.inl hc, by have := h1 hc; omega⟩
            · have := h3.mp hc
              exact ⟨Or.inr (Or.inl (by omega)), by omega⟩
            · exact ⟨Or.inr (Or.inl (by omega)), by omega⟩
            · exact ⟨Or.inr (Or.inr hc), by have := h2 hc; omega⟩
          · rintro ⟨hc | hc | hc, hn⟩
            · exact Or.inl (Or.inl (Or.inl hc))
            · rcases Nat.lt_or_ge x f with hxf | hxf
              · exact Or.inl (Or.inl (Or.inr (h3.mpr (by omega))))
              · exact Or.inl (Or.inr (by omega))
            · exact Or.inr hc
        · intro hp n hn
          rcases List.mem_append.mp hn with h | hrest
          · rcases List.mem_append.mp h with h' | h''
            · rcases List.mem_append.mp h' with ha | hf
              · exact hp n (List.mem_append_left _ ha)
              · exact hF1prop n hf
            · have hn' : n = (⟨t, ptr.end_⟩ : memory_node) := by simpa using h''
              subst hn'
              simpa using het
          · exact hp n (List.mem_append_right _ (List.mem_cons_of_mem _ hrest))
      · -- no trailing fragment: recurse on the captured successor
        rw [hstep, if_neg het, hacc1]
        have hwrec : tree_winv ((acc ++ F1) ++ rest) := by
          refine winv_append_build hwaccF1 hwrest ?_
          intro x hx y hy
          have h1 := haccF1 x (getLast?_mem' hx)
          have h2 := hptr_gap y (head?_mem' hy)
          rw [ranges_gap_iff]
          omega
        obtain ⟨ihW, ihC, ihP⟩ := ih (acc ++ F1) hwrec haccF1 hrest_end
        refine ⟨ihW, ?_, ?_⟩
        · intro x
          rw [ihC x]
          rw [covers_append, covers_append, covers_append, covers_cons]
          simp only [Bool.or_eq_true, decide_eq_true_iff]
          have h1 := hcovacc x
          have h2 := hcovrest x
          have h3 := hF1cov x
          constructor
          · rintro ⟨(hc | hc) | hc, hn⟩
            · exact ⟨Or.inl hc, hn⟩
            · have := h3.mp hc
              exact ⟨Or.inr (Or.inl (by omega)), hn⟩
            · exact ⟨Or.inr (Or.inr hc), hn⟩
          · rintro ⟨hc | hc | hc, hn⟩
            · exact ⟨Or.inl (Or.inl hc), hn⟩
            · exact ⟨Or.inl (Or.inr (h3.mpr (by omega))), hn⟩
            · exact ⟨Or.inr hc, hn⟩
        · intro hp n hn
          refine ihP ?_ n hn
          intro n' hn'
          rcases List.mem_append.mp hn' with h | h
          · rcases List.mem_append.mp h with h' | h'
            · exact hp n' (List.mem_append_left _ h')
            · exact hF1prop n' h'
          · exact hp n' (List.mem_append_right _ (List.mem_cons_of_mem _ h))

theorem remove_range_spec (l : rb_tree) (f t : Nat) (hw : tree_winv l) (hft : f < t) :
    tree_winv (__balloc_remove_range l f t) ∧
    (∀ x, covers (__balloc_remove_range l f t) x = true ↔
      (covers l x = true ∧ ¬(f ≤ x ∧ x < t))) ∧
    ((∀ n ∈ l, n.begin < n.end_) →
      ∀ n ∈ __balloc_remove_range l f t, n.begin < n.end_) := by
  obtain ⟨A, B, hlAB, heq, hA, hB⟩ := remove_range_split l f t hw
  subst hlAB
  rw [heq]
  exact remove_loop_spec f t hft B A hw hA hB

theorem remove_self (l : rb_tree) (f : Nat) (hw : tree_winv l) :
    __balloc_remove_range l f f = l := by
  obtain ⟨A, B, hlAB, heq, hA, hB⟩ := remove_range_split l f f hw
  subst hlAB
  rw [heq]
  cases B with
  | nil => simp [remove_loop]
  | cons ptr rest =>
    have hptr_end : f < ptr.end_ := hB ptr (by simp)
    have hwB : tree_winv (ptr :: rest) := (winv_append_parts hw).2.1
    have hcross : ∀ x ∈ A, x.end_ < ptr.begin := fun x hx =>
      winv_cross hw x hx ptr (by simp)
    have hacc_begin : ∀ x ∈ A, x.begin < ptr.begin := by
      intro x hx
      have h1 := hcross x hx
      have h2 := hw.2 x (List.mem_append_left _ hx)
      omega
    have hptr_gap : ∀ y ∈ rest, ptr.end_ < y.begin := winv_head_gap hwB
    by_cases hpt : ptr.begin < f
    · have hstep : remove_loop f f A (ptr :: rest) =
          remove_loop f f
            (if ptr.end_ > f then
              __balloc_add_range
                (if ptr.begin < f then __balloc_add_range A ptr.begin f else A)
                f ptr.end_
              else if ptr.begin < f then __balloc_add_range A ptr.begin f else A)
            rest := by
        rw [remove_loop]
        rw [if_pos hpt]
      rw [hstep, if_pos (show ptr.end_ > f by omega), if_pos hpt]
      have hacc1 : __balloc_add_range A ptr.begin f =
          A ++ [(⟨ptr.begin, f⟩ : memory_node)] := by
        have := add_range_middle A [] ptr.begin f
          (fun x hx => hacc_begin x hx)
          (fun x hx => hcross x (getLast?_mem' hx))
          (by simp) (by simp)
        simpa using this
      rw [hacc1]
      have hall : ∀ x ∈ A ++ [(⟨ptr.begin, f⟩ : memory_node)],
          (fun n : memory_node => decide (n.begin < f)) x = true := by
        intro x hx
        rcases List.mem_append.mp hx with h | h
        · have := hacc_begin x h
          simp only [decide_eq_true_iff]
          omega
        · have hx' : x = (⟨ptr.begin, f⟩ : memory_node) := by simpa using h
          subst hx'
          simpa using hpt
      have hacc2 : __balloc_add_range (A ++ [(⟨ptr.begin, f⟩ : memory_node)])
          f ptr.end_ = A ++ [ptr] := by
        unfold __balloc_add_range
        rw [List.takeWhile_eq_self_iff.mpr hall, List.dropWhile_eq_nil_iff.mpr hall]
        obtain ⟨L1, R1, n, m, hres, hleft, hright⟩ :=
          add_core_desc (A ++ [(⟨ptr.begin, f⟩ : memory_node)]) [] f ptr.end_
        rcases hleft with ⟨_, _, _, hlast⟩ | ⟨prev, hLp, hnb, hpf, hm⟩
        · exfalso
          have := hlast ⟨ptr.begin, f⟩ (by simp [List.getLast?_concat])
          simp at this
        · have hprev : prev = (⟨ptr.begin, f⟩ : memory_node) := by
            have h1 := congrArg List.getLast? hLp
            rw [List.getLast?_concat, List.getLast?_concat] at h1
            exact (Option.some_inj.mp h1).symm
          have hL1 : L1 = A := by
            have h1 := congrArg List.dropLast hLp
            rw [List.dropLast_concat, List.dropLast_concat] at h1
            exact h1.symm
          rcases hright with ⟨hR1, hne, _⟩ | ⟨next, hRn, _⟩
          · rw [hres, hL1, hR1]
            have hnb' : n.begin = ptr.begin := by rw [hnb, hprev]
            have hne' : n.end_ = ptr.end_ := by
              have hm' : m = max f ptr.end_ := by rw [hm, hprev]
              omega
            have hn : n = ptr := by
              cases n
              cases ptr
              simp only [memory_node.mk.injEq]
              exact ⟨hnb', hne'⟩
            rw [hn]
          · simp at hRn
      rw [hacc2]
      rw [remove_loop_stop f f _ rest
        (by intro x hx
            have := hptr_gap x (head?_mem' hx)
            omega)]
      simp
    · rw [remove_loop_stop f f A (ptr :: rest)
        (by intro x hx
            have hx' : ptr = x := by simpa using hx
            subst hx'
            exact hpt)]

theorem add_then_remove (S : rb_tree) (f t : Nat) (hw : tree_inv S) (hft : f < t)
    (hdisj : ∀ x, f ≤ x → x < t → covers S x = false) :
    __balloc_remove_range (__balloc_add_range S f t) f t = S := by
  have hwS : tree_winv S := winv_of_inv hw
  obtain ⟨L, R, hlr, heq, hL, hR⟩ := add_range_split S f t hwS
  obtain ⟨L1, R1, n, m, hres, hleft, hright⟩ := add_core_desc L R f t
  rw [heq, hres]
  have hwLR : tree_winv (L ++ R) := by rw [← hlr]; exact hwS
  obtain ⟨hwL, hwR, hgapLR⟩ := winv_append_parts hwLR
  have hLend : ∀ x ∈ L, x.end_ ≤ f := by
    intro x hx
    by_contra hxe
    have hcov : covers S f = true := by
      rw [covers_iff]
      refine ⟨x, by rw [hlr]; exact List.mem_append_left _ hx, ?_⟩
      have := hL x hx
      omega
    rw [hdisj f (le_refl f) hft] at hcov
    exact absurd hcov (by simp)
  have hRend : ∀ x ∈ R, f < x.end_ := by
    intro x hx
    have h1 := hR x hx
    have h2 : x.begin < x.end_ := hw.2 x (by rw [hlr]; exact List.mem_append_right _ hx)
    omega
  have hm_t : m = t := by
    rcases hleft with ⟨_, _, hm, _⟩ | ⟨prev, hLp, _, hpf, hm⟩
    · exact hm
    · have hple : prev.end_ ≤ f := hLend prev (by rw [hLp]; simp)
      rw [hm]
      omega
  have hnext_t : ∀ next, R = next :: R1 → next.begin ≤ m → next.begin = t := by
    intro next hRn hle
    have h1 : f ≤ next.begin := hR next (by rw [hRn]; simp)
    have h2 : next.begin < next.end_ :=
      hw.2 next (by rw [hlr, hRn]; exact List.mem_append_right _ (by simp))
    by_contra hne0
    have hlt : next.begin < t := by omega
    have hcov : covers S next.begin = true := by
      rw [covers_iff]
      exact ⟨next, by rw [hlr, hRn]; exact List.mem_append_right _ (by simp), by omega⟩
    rw [hdisj next.begin h1 hlt] at hcov
    exact absurd hcov (by simp)
  have hsubL : ∀ x ∈ L1, x ∈ L := by
    rcases hleft with ⟨rfl, _⟩ | ⟨prev, hLp, _⟩
    · exact fun x hx => hx
    · intro x hx; rw [hLp]; exact List.mem_append_left _ hx
  have hsubR : ∀ x ∈ R1, x ∈ R := by
    rcases hright with ⟨rfl, _⟩ | ⟨next, hRn, _⟩
    · exact fun x hx => hx
    · intro x hx; rw [hRn]; exact List.mem_cons_of_mem _ hx
  have hnend : f < n.end_ := by
    rcases hright with ⟨_, hne, _⟩ | ⟨next, hRn, hnextle, hne⟩
    · omega
    · have := hRend next (by rw [hRn]; simp)
      omega
  -- the search split of the tree produced by the insertion
  have hsplit2 : (L1 ++ n :: R1).takeWhile (fun x => decide (x.end_ ≤ f)) = L1 ∧
      (L1 ++ n :: R1).dropWhile (fun x => decide (x.end_ ≤ f)) = n :: R1 := by
    refine takeWhile_eq_of_split ?_ ?_
    · intro x hx
      have := hLend x (hsubL x hx)
      simpa using this
    · intro x hx
      rcases List.mem_cons.mp hx with rfl | hx
      · simpa using by omega
      · have := hRend x (hsubR x hx)
        simpa using by omega
  have heq2 : __balloc_remove_range (L1 ++ n :: R1) f t = remove_loop f t L1 (n :: R1) := by
    unfold __balloc_remove_range
    rw [hsplit2.1, hsplit2.2]
  rw [heq2]
  have hnbt : n.begin < t := by
    rcases hleft with ⟨_, hnb, _⟩ | ⟨prev, hLp, hnb, _⟩
    · omega
    · have := hL prev (by rw [hLp]; simp)
      omega
  have hstep : remove_loop f t L1 (n :: R1) =
      remove_loop f t
        (if n.end_ > t then
          __balloc_add_range
            (if n.begin < f then __balloc_add_range L1 n.begin f else L1)
            t n.end_
          else if n.begin < f then __balloc_add_range L1 n.begin f else L1)
        R1 := by
    rw [remove_loop]
    rw [if_pos hnbt]
  rw [hstep]
  have hstop : ∀ x ∈ R1.head?, ¬ x.begin < t := by
    intro x hx
    rcases hright with ⟨hR1eq, hne, hhead⟩ | ⟨next, hRn, hnextle, hne⟩
    · have := hhead x (by rw [← hR1eq]; exact hx)
      omega
    · have hwR' : tree_winv (next :: R1) := by rw [← hRn]; exact hwR
      have := winv_head_gap hwR' x (head?_mem' hx)
      have h2 := hnext_t next hRn hnextle
      have h3 : next.begin < next.end_ :=
        hw.2 next (by rw [hlr, hRn]; exact List.mem_append_right _ (by simp))
      omega
  -- compute the visited prefix after the possible fragment re-insertions
  rcases hleft with ⟨hL1eq, hnb, hm, hlast⟩ | ⟨prev, hLp, hnb, hpf, hm⟩
  · -- no predecessor was absorbed: no leading fragment
    rw [if_neg (by omega : ¬ n.begin < f)]
    rcases hright with ⟨hR1eq, hne, hhead⟩ | ⟨next, hRn, hnextle, hne⟩
    · -- no successor absorbed: no trailing fragment either
      rw [if_neg (by omega : ¬ n.end_ > t)]
      rw [remove_loop_stop f t L1 R1 hstop, hL1eq, hR1eq, hlr]
    · -- successor absorbed: its tail is re-created
      have hnt2 : next.begin = t := hnext_t next hRn hnextle
      have hne2 : t < n.end_ := by
        have h3 : next.begin < next.end_ :=
          hw.2 next (by rw [hlr, hRn]; exact List.mem_append_right _ (by simp))
        omega
      rw [if_pos (by omega : n.end_ > t)]
      have hadd : __balloc_add_range L1 t n.end_ = L1 ++ [⟨t, n.end_⟩] := by
        have := add_range_middle L1 [] t n.end_
          (by intro x hx
              have h1 := hLend x (hsubL x hx)
              have h2 := hwL.2 x (hsubL x hx)
              omega)
          (by intro x hx
              have := hLend x (hsubL x (getLast?_mem' hx))
              omega)
          (by simp) (by simp)
        simpa using this
      rw [hadd]
      rw [remove_loop_stop f t _ R1 hstop]
      have hnexteq : (⟨t, n.end_⟩ : memory_node) = next := by
        cases next
        simp only [memory_node.mk.injEq]
        simp only [] at hnt2 hne
        omega
      rw [hnexteq, hL1eq, hlr, hRn]
      simp
  · -- predecessor absorbed: the leading fragment re-creates it
    have hpe : prev.end_ = f := by
      have := hLend prev (by rw [hLp]; simp)
      omega
    have hpb : prev.begin < f := hL prev (by rw [hLp]; simp)
    rw [if_pos (by omega : n.begin < f)]
    have hwL' : tree_winv (L1 ++ [prev]) := by rw [← hLp]; exact hwL
    have hadd1 : __balloc_add_range L1 n.begin f = L1 ++ [prev] := by
      have hcrossL := winv_cross hwL'
      have := add_range_middle L1 [] n.begin f
        (by intro x hx
            have h1 := hcrossL x hx prev (by simp)
            have h2 := hwL'.2 x (List.mem_append_left _ hx)
            omega)
        (by intro x hx
            have := hcrossL x (getLast?_mem' hx) prev (by simp)
            omega)
        (by simp) (by simp)
      simp only [List.append_nil] at this
      rw [this]
      have hpreveq : (⟨n.begin, f⟩ : memory_node) = prev := by
        cases prev
        simp only [memory_node.mk.injEq]
        simp only [] at hnb hpe
        omega
      rw [hpreveq]
    rw [hadd1]
    rcases hright with ⟨hR1eq, hne, hhead⟩ | ⟨next, hRn, hnextle, hne⟩
    · rw [if_neg (by omega : ¬ n.end_ > t)]
      rw [remove_loop_stop f t _ R1 hstop]
      rw [← hLp, hR1eq, hlr]
    · have hnt2 : next.begin = t := hnext_t next hRn hnextle
      have hne2 : t < n.end_ := by
        have h3 : next.begin < next.end_ :=
          hw.2 next (by rw [hlr, hRn]; exact List.mem_append_right _ (by simp))
        omega
      rw [if_pos (by omega : n.end_ > t)]
      have hadd2 : __balloc_add_range (L1 ++ [prev]) t n.end_ =
          (L1 ++ [prev]) ++ [⟨t, n.end_⟩] := by
        have := add_range_middle (L1 ++ [prev]) [] t n.end_
          (by intro x hx
              have h1 := hLend x (by rw [hLp]; exact hx)
              have h2 := hwL'.2 x hx
              omega)
          (by intro x hx
              have := hLend x (by rw [hLp]; exact getLast?_mem' hx)
              omega)
          (by simp) (by simp)
        simpa using this
      rw [hadd2]
      rw [remove_loop_stop f t _ R1 hstop]
      have hnexteq : (⟨t, n.end_⟩ : memory_node) = next := by
        cases next
        simp only [memory_node.mk.injEq]
        simp only [] at hnt2 hne
        omega
      rw [hnexteq, ← hLp, hlr, hRn]
      simp

theorem winv_pairwise {l : rb_tree} (h : tree_winv l) :
    List.Pairwise (fun a b : memory_node => a.end_ < b.begin) l := by
  induction l with
  | nil => simp
  | cons a l ih =>
    rw [List.pairwise_cons]
    exact ⟨winv_head_gap h, ih (winv_tail h)⟩

theorem inv_begin_lt {l : rb_tree} (h : tree_inv l) :
    List.Pairwise (fun a b : memory_node => a.begin < b.begin) l := by
  induction l with
  | nil => simp
  | cons a l ih =>
    rw [List.pairwise_cons]
    constructor
    · intro b hb
      have h1 := winv_head_gap (winv_of_inv h) b hb
      have h2 := h.2 a (by simp)
      omega
    · exact ih ⟨h.1.tail, fun n hn => h.2 n (List.mem_cons_of_mem _ hn)⟩

theorem inv_add (l : rb_tree) (f t : Nat) (h : tree_inv l) (hft : f < t) :
    tree_inv (__balloc_add_range l f t) := by
  obtain ⟨hW, _, _, _, hP⟩ := add_range_spec l f t (winv_of_inv h) (Nat.le_of_lt hft)
  exact ⟨hW.1, hP h.2 hft⟩

theorem inv_remove (l : rb_tree) (f t : Nat) (h : tree_inv l) (hft : f ≤ t) :
    tree_inv (__balloc_remove_range l f t) := by
  rcases Nat.lt_or_ge f t with hlt | hge
  · obtain ⟨hW, _, hP⟩ := remove_range_spec l f t (winv_of_inv h) hlt
    exact ⟨hW.1, hP h.2⟩
  · have htf : t = f := by omega
    subst htf
    rw [remove_self l t (winv_of_inv h)]
    exact h

theorem foldl_ops_inv : ∀ (ops : List balloc_set_op) (l : rb_tree), tree_inv l →
    (∀ op ∈ ops, op_ok op) → tree_inv (ops.foldl apply_set_op l) := by
  intro ops
  induction ops with
  | nil =>
    intro l hl _
    simpa using hl
  | cons op ops ih =>
    intro l hl h
    rw [List.foldl_cons]
    refine ih _ ?_ fun o ho => h o (List.mem_cons_of_mem _ ho)
    cases op with
    | add_call f t => exact inv_add l f t hl (h (.add_call f t) (by simp))
    | remove_call f t => exact inv_remove l f t hl (h (.remove_call f t) (by simp))

/-! ### Claim theorems -/

/-- C1 (counterexample): with the invariant-satisfying set `{[10,20)}` and
the call `add_range(set, 5, 30)` (so `from < to`), address 25 lies in the
union of the old coverage and `[5, 30)` but is not covered afterwards —
the successor absorption assigns `new->end = next->end`, cutting the
inserted range short at 20. -/
theorem C1_add_range_union_cex :
    tree_inv [(⟨10, 20⟩ : memory_node)] ∧ 5 < 30 ∧ (5 : Nat) ≤ 25 ∧ 25 < 30 ∧
    covers [(⟨10, 20⟩ : memory_node)] 25 = false ∧
    covers (__balloc_add_range [⟨10, 20⟩] 5 30) 25 = false := by decide

/-- C1 (amended): for an interval set satisfying the invariant and
`from < to`, `add_range` makes the covered addresses exactly the union of
the old coverage with `[from, to)` — and coalescing with at most the one
in-order predecessor and the one in-order successor suffices to restore
the invariant — provided the inserted range does not extend strictly past
the end of a stored range it absorbs (`add_no_truncation`); without that
proviso the C code truncates the inserted range at the absorbed
successor's end. -/
theorem C1_add_range_union_amended (set : rb_tree) (f t : Nat)
    (h : tree_inv set) (hft : f < t) (hnt : add_no_truncation set f t) :
    (∀ x, covers (__balloc_add_range set f t) x = true ↔
      (covers set x = true ∨ (f ≤ x ∧ x < t))) ∧
    tree_inv (__balloc_add_range set f t) := by
  obtain ⟨hW, hmono, hupper, hexact, hprop⟩ :=
    add_range_spec set f t (winv_of_inv h) (Nat.le_of_lt hft)
  refine ⟨?_, hW.1, hprop h.2 hft⟩
  intro x
  constructor
  · exact hupper x
  · rintro (hx | hx)
    · exact hmono x hx
    · exact hexact hnt x hx.1 hx.2

theorem C1_add_range_union_amended_witness :
    (∀ x, covers (__balloc_add_range [⟨10, 20⟩] 5 15) x = true ↔
      (covers [(⟨10, 20⟩ : memory_node)] x = true ∨ (5 ≤ x ∧ x < 15))) ∧
    tree_inv (__balloc_add_range [⟨10, 20⟩] 5 15) :=
  C1_add_range_union_amended [⟨10, 20⟩] 5 15 (by decide) (by decide) (by decide)

/-- C2: starting from the empty set, any sequence of `add_range` calls with
`from < to` and `remove_range` calls with `from ≤ to` leaves the stored
ranges pairwise disjoint and non-adjacent (each range ends strictly before
the next begins) and the in-order `begin` values strictly increasing. -/
theorem C2_disjointness_invariant (ops : List balloc_set_op)
    (h : ∀ op ∈ ops, op_ok op) :
    tree_inv (run_set_ops ops) ∧
    List.Pairwise (fun a b : memory_node => a.end_ < b.begin) (run_set_ops ops) ∧
    List.Pairwise (fun a b : memory_node => a.begin < b.begin) (run_set_ops ops) := by
  have h1 : tree_inv (run_set_ops ops) :=
    foldl_ops_inv ops [] ⟨List.chain'_nil, by simp⟩ h
  exact ⟨h1, winv_pairwise (winv_of_inv h1), inv_begin_lt h1⟩

theorem C2_disjointness_invariant_witness :
    tree_inv (run_set_ops [.add_call 0 10, .add_call 10 20, .remove_call 5 15]) ∧
    List.Pairwise (fun a b : memory_node => a.end_ < b.begin)
      (run_set_ops [.add_call 0 10, .add_call 10 20, .remove_call 5 15]) ∧
    List.Pairwise (fun a b : memory_node => a.begin < b.begin)
      (run_set_ops [.add_call 0 10, .add_call 10 20, .remove_call 5 15]) :=
  C2_disjointness_invariant [.add_call 0 10, .add_call 10 20, .remove_call 5 15]
    (by decide)

/-- C3: for an invariant-satisfying set and `from ≤ to`, after
`remove_range(set, from, to)` no stored range overlaps `[from, to)`, every
previously covered address outside `[from, to)` is still covered, and in
particular `remove_range({[0,100)}, 40, 60) = {[0,40), [60,100)}`. -/
theorem C3_remove_range_correct (set : rb_tree) (f t : Nat)
    (h : tree_inv set) (hft : f ≤ t) :
    (∀ r ∈ __balloc_remove_range set f t, ∀ x, r.begin ≤ x → x < r.end_ →
      ¬(f ≤ x ∧ x < t)) ∧
    (∀ x, covers set x = true → ¬(f ≤ x ∧ x < t) →
      covers (__balloc_remove_range set f t) x = true) ∧
    __balloc_remove_range [⟨0, 100⟩] 40 60 = [⟨0, 40⟩, ⟨60, 100⟩] := by
  refine ⟨?_, ?_, by decide⟩
  · intro r hr x hx1 hx2
    rcases Nat.lt_or_ge f t with hlt | hge
    · obtain ⟨_, hC, _⟩ := remove_range_spec set f t (winv_of_inv h) hlt
      intro hin
      have hcov : covers (__balloc_remove_range set f t) x = true := by
        rw [covers_iff]
        exact ⟨r, hr, ⟨hx1, hx2⟩⟩
      have := (hC x).mp hcov
      exact this.2 hin
    · omega
  · intro x hcov hout
    rcases Nat.lt_or_ge f t with hlt | hge
    · obtain ⟨_, hC, _⟩ := remove_range_spec set f t (winv_of_inv h) hlt
      exact (hC x).mpr ⟨hcov, hout⟩
    · have htf : t = f := by omega
      subst htf
      rw [remove_self set t (winv_of_inv h)]
      exact hcov

theorem C3_remove_range_correct_witness :
    (∀ r ∈ __balloc_remove_range [⟨0, 100⟩] 40 60, ∀ x, r.begin ≤ x → x < r.end_ →
      ¬(40 ≤ x ∧ x < 60)) ∧
    (∀ x, covers [(⟨0, 100⟩ : memory_node)] x = true → ¬(40 ≤ x ∧ x < 60) →
      covers (__balloc_remove_range [⟨0, 100⟩] 40 60) x = true) ∧
    __balloc_remove_range [⟨0, 100⟩] 40 60 = [⟨0, 40⟩, ⟨60, 100⟩] :=
  C3_remove_range_correct [⟨0, 100⟩] 40 60 (by decide) (by decide)

/-- C7: if no address of `[from, to)` is covered by an invariant-satisfying
set `S` (the range is absent from `S`, though it may touch a stored range),
then `add_range(S, from, to)` followed by `remove_range(S, from, to)`
restores the exact in-order traversal output `S`. -/
theorem C7_add_remove_conservation (S : rb_tree) (f t : Nat)
    (h : tree_inv S) (hft : f < t)
    (hdisj : ∀ x, f ≤ x → x < t → covers S x = false) :
    __balloc_remove_range (__balloc_add_range S f t) f t = S :=
  add_then_remove S f t h hft hdisj

theorem C7_add_remove_conservation_witness :
    __balloc_remove_range (__balloc_add_range [⟨0, 5⟩, ⟨20, 30⟩] 5 10) 5 10 =
      [⟨0, 5⟩, ⟨20, 30⟩] :=
  C7_add_remove_conservation [⟨0, 5⟩, ⟨20, 30⟩] 5 10 (by decide) (by decide)
    (by decide)

/-- C9: a degenerate `remove_range(set, x, x)` call on an
invariant-satisfying set leaves the stored ranges unchanged. -/
theorem C9_degenerate_remove_noop (set : rb_tree) (x : Nat) (h : tree_inv set) :
    __balloc_remove_range set x x = set :=
  remove_self set x (winv_of_inv h)

theorem C9_degenerate_remove_noop_witness :
    __balloc_remove_range [⟨0, 10⟩, ⟨20, 30⟩] 5 5 = [⟨0, 10⟩, ⟨20, 30⟩] :=
  C9_degenerate_remove_noop [⟨0, 10⟩, ⟨20, 30⟩] 5 (by decide)

/-! ### Arithmetic of the alignment mask -/

theorem land_c2pow {x k : Nat} (hx : x < 2 ^ 64) (hk : k ≤ 64) :
    x &&& (2 ^ 64 - 2 ^ k) = 2 ^ k * (x / 2 ^ k) := by
  have h2 : 2 ^ 64 - 2 ^ k = (2 ^ (64 - k) - 1) <<< k := by
    rw [Nat.shiftLeft_eq, Nat.sub_mul, one_mul, ← pow_add, Nat.sub_add_cancel hk]
  have h1 : 2 ^ k * (x / 2 ^ k) = (x >>> k) <<< k := by
    rw [Nat.shiftRight_eq_div_pow, Nat.shiftLeft_eq, Nat.mul_comm]
  rw [h2, h1]
  apply Nat.eq_of_testBit_eq
  intro i
  rw [Nat.testBit_land, Nat.testBit_shiftLeft, Nat.testBit_shiftLeft,
    Nat.testBit_two_pow_sub_one, Nat.testBit_shiftRight]
  by_cases hik : i ≥ k
  · have e1 : decide (i ≥ k) = true := by simpa using hik
    rw [e1, Bool.true_and, Bool.true_and, show k + (i - k) = i by omega]
    by_cases hi64 : i < 64
    · have e2 : decide (i - k < 64 - k) = true := by
        simp only [decide_eq_true_iff]
        omega
      rw [e2, Bool.and_true]
    · have e2 : decide (i - k < 64 - k) = false := by
        simp only [decide_eq_false_iff_not]
        omega
      have e3 : x.testBit i = false :=
        Nat.testBit_lt_two_pow
          (lt_of_lt_of_le hx (Nat.pow_le_pow_right (by norm_num) (by omega)))
      simp [e2, e3]
  · have e1 : decide (i ≥ k) = false := by simpa using hik
    rw [e1, Bool.false_and, Bool.false_and, Bool.and_false]

theorem aligned_addr_spec (b k : Nat) (hk : k ≤ 64)
    (hb : b + (2 ^ k - 1) < 2 ^ 64) :
    aligned_addr b (2 ^ k) = 2 ^ k * ((b + (2 ^ k - 1)) / 2 ^ k) := by
  unfold aligned_addr align_mask u64M
  have hpos : 1 ≤ 2 ^ k := Nat.one_le_two_pow
  have hklt : 2 ^ k ≤ 2 ^ 64 := Nat.pow_le_pow_right (by norm_num) hk
  have hmask : (2 ^ k + (2 ^ 64 - 1)) % 2 ^ 64 = 2 ^ k - 1 := by
    rw [show 2 ^ k + (2 ^ 64 - 1) = (2 ^ k - 1) + 2 ^ 64 by omega, Nat.add_mod_right]
    exact Nat.mod_eq_of_lt (by omega)
  rw [hmask, Nat.mod_eq_of_lt hb,
    show 2 ^ 64 - 1 - (2 ^ k - 1) = 2 ^ 64 - 2 ^ k by omega]
  exact land_c2pow hb hk

theorem roundup_props (b a : Nat) (ha : 0 < a) :
    b ≤ a * ((b + (a - 1)) / a) ∧ a * ((b + (a - 1)) / a) ≤ b + (a - 1) ∧
    a * ((b + (a - 1)) / a) % a = 0 ∧
    (∀ m, m % a = 0 → b ≤ m → a * ((b + (a - 1)) / a) ≤ m) := by
  have hdm := Nat.div_add_mod (b + (a - 1)) a
  have hr : (b + (a - 1)) % a < a := Nat.mod_lt _ ha
  refine ⟨by omega, by omega, by simp [Nat.mul_mod_right], ?_⟩
  intro m hm hbm
  obtain ⟨j, rfl⟩ := Nat.dvd_of_mod_eq_zero hm
  have hq : (b + (a - 1)) / a ≤ j := by
    by_contra hlt
    push_neg at hlt
    have h1 : a * (j + 1) ≤ a * ((b + (a - 1)) / a) :=
      Nat.mul_le_mul_left a hlt
    have h2 : a * (j + 1) = a * j + a := by ring
    omega
  exact Nat.mul_le_mul_left a hq

theorem pairwise_mem_cases {R : memory_node → memory_node → Prop} :
    ∀ {l : List memory_node}, List.Pairwise R l →
      ∀ {x y}, x ∈ l → y ∈ l → x = y ∨ R x y ∨ R y x := by
  intro l
  induction l with
  | nil => simp
  | cons a l ih =>
    intro hl x y hx hy
    rw [List.pairwise_cons] at hl
    rcases List.mem_cons.mp hx with hxa | hx
    · rcases List.mem_cons.mp hy with hya | hy
      · left; rw [hxa, hya]
      · right; left
        rw [hxa]
        exact hl.1 y hy
    · rcases List.mem_cons.mp hy with hya | hy
      · right; right
        rw [hya]
        exact hl.1 x hx
      · exact ih hl.2 hx hy

/-- A contiguous block entirely covered by a disjoint interval set lies
inside a single stored range. -/
theorem block_in_single (l : rb_tree) (a size : Nat) (hw : tree_winv l)
    (hsize : 0 < size)
    (hcov : ∀ x, a ≤ x → x < a + size → covers l x = true) :
    ∃ el ∈ l, el.begin ≤ a ∧ a + size ≤ el.end_ := by
  have h0 : covers l a = true := hcov a (le_refl a) (by omega)
  rw [covers_iff] at h0
  obtain ⟨el, hel, h1⟩ := h0
  refine ⟨el, hel, h1.1, ?_⟩
  by_contra hlt
  push_neg at hlt
  have h2 : covers l el.end_ = true := hcov el.end_ (by omega) (by omega)
  rw [covers_iff] at h2
  obtain ⟨el2, hel2, h3⟩ := h2
  have hp := winv_pairwise hw
  rcases pairwise_mem_cases hp hel hel2 with heq | hR | hR
  · subst heq
    omega
  · omega
  · omega

theorem alloc_loop_spec (size k f t : Nat) (hk : k ≤ 64) (hsize : 0 < size)
    (hft : f ≤ t) (hbound : t + 2 ^ k + size ≤ 2 ^ 64) :
    ∀ (B acc : List memory_node), tree_winv (acc ++ B) →
      (∀ n ∈ acc ++ B, n.begin < n.end_) →
      (∀ el ∈ acc, ∀ a, a % 2 ^ k = 0 → f ≤ a → a + size ≤ t →
        ¬(el.begin ≤ a ∧ a + size ≤ el.end_)) →
      ∀ ret tr, alloc_loop size (2 ^ k) f t acc B = (ret, tr) →
      ((ret = t ∧ tr = acc ++ B) ∨
        (ret % 2 ^ k = 0 ∧ f ≤ ret ∧ ret + size ≤ t ∧
          (∀ x, ret ≤ x → x < ret + size → covers (acc ++ B) x = true) ∧
          (∀ x, covers tr x = true ↔
            (covers (acc ++ B) x = true ∧ ¬(ret ≤ x ∧ x < ret + size))) ∧
          tree_winv tr ∧ (∀ n ∈ tr, n.begin < n.end_) ∧
          (∀ a, a % 2 ^ k = 0 → f ≤ a → a + size ≤ t →
            (∀ x, a ≤ x → x < a + size → covers (acc ++ B) x = true) →
            ret ≤ a))) := by
  intro B
  induction B with
  | nil =>
    intro acc hw hprop hax ret tr heq
    left
    rw [alloc_loop] at heq
    injection heq with h1 h2
    exact ⟨h1.symm, by rw [← h2, List.append_nil]⟩
  | cons ptr rest ih =>
    intro acc hw hprop hax ret tr heq
    have hwacc : tree_winv acc := (winv_append_parts hw).1
    have hwB : tree_winv (ptr :: rest) := (winv_append_parts hw).2.1
    have hwrest : tree_winv rest := winv_tail hwB
    have hptrprop : ptr.begin < ptr.end_ := hprop ptr (by simp)
    have hcross : ∀ x ∈ acc, x.end_ < ptr.begin := fun x hx =>
      winv_cross hw x hx ptr (by simp)
    have hacc_begin : ∀ x ∈ acc, x.begin < ptr.begin := by
      intro x hx
      have h1 := hcross x hx
      have h2 := hw.2 x (List.mem_append_left _ hx)
      omega
    have hgap : ∀ y ∈ rest, ptr.end_ < y.begin := winv_head_gap hwB
    have h2k : (0 : Nat) < 2 ^ k := pow_pos (by norm_num) k
    have hcovacc : ∀ x, covers acc x = true → x < ptr.begin := fun x h =>
      covers_lt_of_end_le (fun a ha => Nat.le_of_lt (hcross a ha)) h
    have hcovrest : ∀ x, covers rest x = true → ptr.end_ < x := fun x h =>
      covers_gt_of_begin_gt hgap h
    by_cases hpt : ptr.begin < t
    case neg =>
      left
      rw [alloc_loop, if_neg hpt] at heq
      injection heq with h1 h2
      exact ⟨h1.symm, h2.symm⟩
    case pos =>
      set bb := if ptr.begin > f then ptr.begin else f with hbb
      set ee := if ptr.end_ < t then ptr.end_ else t with hee
      set ad := aligned_addr bb (2 ^ k) with had
      have hbb_ptr : ptr.begin ≤ bb := by rw [hbb]; split <;> omega
      have hbb_f : f ≤ bb := by rw [hbb]; split <;> omega
      have hbb_t : bb ≤ t := by rw [hbb]; split <;> omega
      have hee_t : ee ≤ t := by rw [hee]; split <;> omega
      have hee_end : ee ≤ ptr.end_ := by rw [hee]; split <;> omega
      have hbm : bb + (2 ^ k - 1) < 2 ^ 64 := by omega
      have hads : ad = 2 ^ k * ((bb + (2 ^ k - 1)) / 2 ^ k) := by
        rw [had]
        exact aligned_addr_spec bb k hk hbm
      obtain ⟨hr1, hr2, hr3, hr4⟩ := roundup_props bb (2 ^ k) h2k
      rw [← hads] at hr1 hr2 hr3 hr4
      have hadsize : ad + size < 2 ^ 64 := by omega
      have hmod : (ad + size) % u64M = ad + size :=
        Nat.mod_eq_of_lt (by unfold u64M; omega)
      have hstep : alloc_loop size (2 ^ k) f t acc (ptr :: rest) =
          if (ad + size) % u64M ≤ ee then
            (ad,
              if ptr.end_ > (ad + size) % u64M then
                __balloc_add_range
                  (if ptr.begin < ad then
                    __balloc_add_range (acc ++ rest) ptr.begin ad
                  else acc ++ rest)
                  ((ad + size) % u64M) ptr.end_
              else
                if ptr.begin < ad then
                  __balloc_add_range (acc ++ rest) ptr.begin ad
                else acc ++ rest)
          else alloc_loop size (2 ^ k) f t (acc ++ [ptr]) rest := by
        rw [alloc_loop]
        rw [if_pos hpt]
      rw [hmod] at hstep
      by_cases hsucc : ad + size ≤ ee
      · -- a fitting aligned block: the node is erased and split
        rw [hstep, if_pos hsucc] at heq
        injection heq with hret htr
        subst hret
        right
        set F1 : rb_tree :=
          if ptr.begin < ad then [(⟨ptr.begin, ad⟩ : memory_node)] else [] with hF1
        set F2 : rb_tree :=
          if ptr.end_ > ad + size then [(⟨ad + size, ptr.end_⟩ : memory_node)] else []
          with hF2
        have hF1node : ∀ n ∈ F1, n.begin = ptr.begin ∧ n.end_ = ad ∧ ptr.begin < ad := by
          rw [hF1]
          split
          next hb1 =>
            intro n hn
            have hn' : n = (⟨ptr.begin, ad⟩ : memory_node) := by simpa using hn
            subst hn'
            exact ⟨rfl, rfl, hb1⟩
          next => simp
        have hF2node : ∀ n ∈ F2, n.begin = ad + size ∧ n.end_ = ptr.end_ ∧
            ad + size < ptr.end_ := by
          rw [hF2]
          split
          next hb2 =>
            intro n hn
            have hn' : n = (⟨ad + size, ptr.end_⟩ : memory_node) := by simpa using hn
            subst hn'
            exact ⟨rfl, rfl, hb2⟩
          next => simp
        have hF1cov : ∀ x, covers F1 x = true ↔
            (ptr.begin < ad ∧ ptr.begin ≤ x ∧ x < ad) := by
          intro x
          rw [hF1]
          split
          next hb1 =>
            rw [covers_singleton]
            simp only [decide_eq_true_iff]
            omega
          next hb1 =>
            simp only [covers, List.any_nil, Bool.false_eq_true, false_iff]
            omega
        have hF2cov : ∀ x, covers F2 x = true ↔
            (ad + size < ptr.end_ ∧ ad + size ≤ x ∧ x < ptr.end_) := by
          intro x
          rw [hF2]
          split
          next hb2 =>
            rw [covers_singleton]
            simp only [decide_eq_true_iff]
            omega
          next hb2 =>
            simp only [covers, List.any_nil, Bool.false_eq_true, false_iff]
            omega
        have hfrag1 : (if ptr.begin < ad then
            __balloc_add_range (acc ++ rest) ptr.begin ad
          else acc ++ rest) = (acc ++ F1) ++ rest := by
          rw [hF1]
          by_cases hb1 : ptr.begin < ad
          · rw [if_pos hb1, if_pos hb1]
            rw [add_range_middle acc rest ptr.begin ad hacc_begin
              (fun x hx => hcross x (getLast?_mem' hx))
              (fun x hx => by have := hgap x hx; omega)
              (fun x hx => by have := hgap x (head?_mem' hx); omega)]
            simp
          · rw [if_neg hb1, if_neg hb1]
            simp
        have hlastAF1 : ∀ x ∈ acc ++ F1, x.end_ ≤ ad := by
          intro x hx
          rcases List.mem_append.mp hx with h | h
          · have := hcross x h
            omega
          · have := hF1node x h
            omega
        have hbeginAF1 : ∀ x ∈ acc ++ F1, x.begin < ad + size := by
          intro x hx
          rcases List.mem_append.mp hx with h | h
          · have := hacc_begin x h
            omega
          · have := hF1node x h
            omega
        have htreq : tr = (acc ++ F1) ++ F2 ++ rest := by
          rw [← htr]
          by_cases hb2 : ptr.end_ > ad + size
          · rw [if_pos hb2, hfrag1]
            rw [add_range_middle (acc ++ F1) rest (ad + size) ptr.end_
              hbeginAF1
              (fun x hx => by have := hlastAF1 x (getLast?_mem' hx); omega)
              (fun x hx => by have := hgap x hx; omega)
              (fun x hx => by have := hgap x (head?_mem' hx); omega)]
            rw [hF2, if_pos hb2]
            simp
          · rw [if_neg hb2, hfrag1]
            rw [hF2, if_neg hb2]
            simp
        have hwAF1 : tree_winv (acc ++ F1) := by
          refine winv_append_build hwacc ⟨?_, ?_⟩ ?_
          · rw [hF1]; split <;> simp
          · intro n hn
            have := hF1node n hn
            omega
          · intro x hx y hy
            have h1 := hcross x (getLast?_mem' hx)
            have h2 := hF1node y (head?_mem' hy)
            rw [ranges_gap_iff]
            omega
        have hwF2 : tree_winv F2 := by
          constructor
          · rw [hF2]; split <;> simp
          · intro n hn
            have := hF2node n hn
            omega
        have hwAF12 : tree_winv ((acc ++ F1) ++ F2) := by
          refine winv_append_build hwAF1 hwF2 ?_
          intro x hx y hy
          have h1 := hlastAF1 x (getLast?_mem' hx)
          have h2 := hF2node y (head?_mem' hy)
          rw [ranges_gap_iff]
          omega
        have hwtr : tree_winv tr := by
          rw [htreq]
          refine winv_append_build hwAF12 hwrest ?_
          intro x hx y hy
          have hxm := getLast?_mem' hx
          have h2 := hgap y (head?_mem' hy)
          rw [ranges_gap_iff]
          rcases List.mem_append.mp hxm with h | h
          · have := hlastAF1 x h
            omega
          · have := hF2node x h
            omega
        refine ⟨?_, ?_, ?_, ?_, ?_, hwtr, ?_, ?_⟩
        · exact hr3
        · omega
        · omega
        · intro x hx1 hx2
          rw [covers_iff]
          exact ⟨ptr, List.mem_append_right _ (by simp), by omega⟩
        · intro x
          rw [htreq]
          rw [covers_append, covers_append, covers_append, covers_append,
            covers_cons]
          simp only [Bool.or_eq_true, decide_eq_true_iff]
          have h1 := hcovacc x
          have h2 := hcovrest x
          have h3 := hF1cov x
          have h4 := hF2cov x
          constructor
          · rintro (((hc | hc) | hc) | hc)
            · exact ⟨Or.inl hc, by have := h1 hc; omega⟩
            · have := h3.mp hc
              exact ⟨Or.inr (Or.inl (by omega)), by omega⟩
            · have := h4.mp hc
              exact ⟨Or.inr (Or.inl (by omega)), by omega⟩
            · exact ⟨Or.inr (Or.inr hc), by have := h2 hc; omega⟩
          · rintro ⟨hc | hc | hc, hn⟩
            · exact Or.inl (Or.inl (Or.inl hc))
            · rcases Nat.lt_or_ge x ad with hxa | hxa
              · exact Or.inl (Or.inl (Or.inr (h3.mpr (by omega))))
              · exact Or.inl (Or.inr (h4.mpr (by omega)))
            · exact Or.inr hc
        · intro n hn
          rw [htreq] at hn
          rcases List.mem_append.mp hn with h | h
          · rcases List.mem_append.mp h with h' | h'
            · rcases List.mem_append.mp h' with ha | hf
              · exact hprop n (List.mem_append_left _ ha)
              · have := hF1node n hf
                omega
            · have := hF2node n h'
              omega
          · exact hprop n (List.mem_append_right _ (List.mem_cons_of_mem _ h))
        · intro a ham haf hat hacov
          obtain ⟨el, hel, hel1, hel2⟩ :=
            block_in_single (acc ++ ptr :: rest) a size hw hsize hacov
          rcases List.mem_append.mp hel with h | h
          · exact absurd ⟨hel1, hel2⟩ (hax el h a ham haf hat)
          · rcases List.mem_cons.mp h with rfl | h
            · have hba : bb ≤ a := by rw [hbb]; split <;> omega
              exact hr4 a ham hba
            · have := hgap el h
              omega
      · -- no room in this node: step to the in-order successor
        rw [hstep, if_neg hsucc] at heq
        have hax' : ∀ el ∈ acc ++ [ptr], ∀ a, a % 2 ^ k = 0 → f ≤ a →
            a + size ≤ t → ¬(el.begin ≤ a ∧ a + size ≤ el.end_) := by
          intro el hel a ham haf hat
          rcases List.mem_append.mp hel with h | h
          · exact hax el h a ham haf hat
          · have hel' : el = ptr := by simpa using h
            subst hel'
            rintro ⟨hba, hae⟩
            have hba' : bb ≤ a := by rw [hbb]; split <;> omega
            have := hr4 a ham hba'
            have hee' : a + size ≤ ee := by rw [hee]; split <;> omega
            omega
        have hre : (acc ++ [ptr]) ++ rest = acc ++ ptr :: rest := by
          rw [List.append_assoc]
          rfl
        have hw' : tree_winv ((acc ++ [ptr]) ++ rest) := by rw [hre]; exact hw
        have hprop' : ∀ n ∈ (acc ++ [ptr]) ++ rest, n.begin < n.end_ := by
          rw [hre]
          exact hprop
        have hres := ih (acc ++ [ptr]) hw' hprop' hax' ret tr heq
        rw [hre] at hres
        exact hres

theorem alloc_range_split (size align f t : Nat) (l : rb_tree) (hw : tree_winv l) :
    ∃ A B, l = A ++ B ∧
      __balloc_alloc size align f t l = alloc_loop size align f t A B ∧
      (∀ x ∈ A, x.end_ ≤ f) ∧ (∀ x ∈ B, f < x.end_) := by
  refine ⟨l.takeWhile (fun x => decide (x.end_ ≤ f)),
    l.dropWhile (fun x => decide (x.end_ ≤ f)),
    (List.takeWhile_append_dropWhile ..).symm, rfl, ?_, ?_⟩
  · intro x hx; simpa using List.mem_takeWhile_imp hx
  · exact mem_dropWhile_end hw

theorem balloc_alloc_spec (size k f t : Nat) (free : rb_tree) (h : tree_inv free)
    (hsize : 0 < size) (hft : f ≤ t) (hbound : t + 2 ^ k + size ≤ 2 ^ 64) :
    ∀ ret tr, __balloc_alloc size (2 ^ k) f t free = (ret, tr) →
      ((ret = t ∧ tr = free) ∨
        (ret % 2 ^ k = 0 ∧ f ≤ ret ∧ ret + size ≤ t ∧
          (∀ x, ret ≤ x → x < ret + size → covers free x = true) ∧
          (∀ x, covers tr x = true ↔
            (covers free x = true ∧ ¬(ret ≤ x ∧ x < ret + size))) ∧
          tree_inv tr ∧
          (∀ a, a % 2 ^ k = 0 → f ≤ a → a + size ≤ t →
            (∀ x, a ≤ x → x < a + size → covers free x = true) → ret ≤ a))) := by
  intro ret tr heq
  have h2k64 : 2 ^ k ≤ 2 ^ 64 := by omega
  have hk : k ≤ 64 := by
    by_contra hgt
    push_neg at hgt
    have : (2 : Nat) ^ 64 < 2 ^ k := Nat.pow_lt_pow_right (by norm_num) hgt
    omega
  have hwS : tree_winv free := winv_of_inv h
  obtain ⟨A, B, hAB, heq2, hA, hB⟩ := alloc_range_split size (2 ^ k) f t free hwS
  subst hAB
  rw [heq2] at heq
  have hax : ∀ el ∈ A, ∀ a, a % 2 ^ k = 0 → f ≤ a → a + size ≤ t →
      ¬(el.begin ≤ a ∧ a + size ≤ el.end_) := by
    intro el hel a _ haf _
    rintro ⟨h1, h2⟩
    have := hA el hel
    omega
  have hres := alloc_loop_spec size k f t hk hsize hft hbound B A
    (winv_of_inv h) h.2 hax ret tr heq
  rcases hres with hfail | ⟨c1, c2, c3, c4, c5, c6, c7, c8⟩
  · exact Or.inl hfail
  · exact Or.inr ⟨c1, c2, c3, c4, c5, ⟨c6.1, c7⟩, c8⟩

/-- C4 (counterexample): `alloc(size=2^64-4, align=1, from=5, to=12)` on
the invariant-satisfying free set `{[0,8)}` succeeds — the 64-bit sum
`addr + size` wraps around to 1, passing the `addr + size <= e` test — and
returns `5 ≠ to` even though `a + size ≤ to` fails, so the claimed success
properties do not hold. -/
theorem C4_alloc_success_cex :
    tree_inv [(⟨0, 8⟩ : memory_node)] ∧ 0 < 2 ^ 64 - 4 ∧ (1 : Nat) = 2 ^ 0 ∧
    (__balloc_alloc (2 ^ 64 - 4) 1 5 12 [⟨0, 8⟩]).1 ≠ 12 ∧
    ¬((__balloc_alloc (2 ^ 64 - 4) 1 5 12 [⟨0, 8⟩]).1 + (2 ^ 64 - 4) ≤ 12) := by
  decide

/-- C4 (amended): whenever `__balloc_alloc(size, align, from, to)` returns
`a ≠ to`, with `size > 0`, `align` a power of two, `from ≤ to` and
`to + align + size ≤ 2^64` (so none of the 64-bit additions in the search
wrap around), the returned address is aligned, lies in the window, its
block was entirely free, and the free set afterwards covers exactly the
old coverage minus `[a, a+size)` (both remainders of the chosen range are
re-inserted, including any part outside the window). -/
theorem C4_alloc_success (free : rb_tree) (size align f t k ret : Nat)
    (tr : rb_tree) (h : tree_inv free) (hsize : 0 < size)
    (halign : align = 2 ^ k) (hft : f ≤ t)
    (hbound : t + align + size ≤ 2 ^ 64)
    (heq : __balloc_alloc size align f t free = (ret, tr))
    (hfail : ret ≠ t) :
    ret % align = 0 ∧ f ≤ ret ∧ ret + size ≤ t ∧
    (∀ x, ret ≤ x → x < ret + size → covers free x = true) ∧
    (∀ x, covers tr x = true ↔
      (covers free x = true ∧ ¬(ret ≤ x ∧ x < ret + size))) := by
  subst halign
  have hres := balloc_alloc_spec size k f t free h hsize hft hbound ret tr heq
  rcases hres with ⟨h1, _⟩ | ⟨c1, c2, c3, c4, c5, _⟩
  · exact absurd h1 hfail
  · exact ⟨c1, c2, c3, c4, c5⟩

theorem C4_alloc_success_witness :
    (0 : Nat) % 16 = 0 ∧ (0 : Nat) ≤ 0 ∧ 0 + 10 ≤ 100 ∧
    (∀ x, 0 ≤ x → x < 0 + 10 → covers [(⟨0, 100⟩ : memory_node)] x = true) ∧
    (∀ x, covers [(⟨10, 100⟩ : memory_node)] x = true ↔
      (covers [(⟨0, 100⟩ : memory_node)] x = true ∧ ¬(0 ≤ x ∧ x < 0 + 10))) :=
  C4_alloc_success [⟨0, 100⟩] 10 16 0 100 4 0 [⟨10, 100⟩] (by decide) (by decide)
    (by norm_num) (by decide) (by decide) (by decide) (by decide)

/-- C5 (counterexample): `alloc(size=2^64-100, align=1, from=100, to=100)`
on the free set `{[0,200)}` takes the success branch (`addr + size` wraps
to 0), returns the sentinel value `to = 100` — yet the free set is
changed: the trailing re-insertion `add_range(0, 200)` is truncated by the
successor absorption and `[100,200)` is lost, so `free` becomes
`{[0,100)}`. -/
theorem C5_sentinel_cex :
    tree_inv [(⟨0, 200⟩ : memory_node)] ∧ 0 < 2 ^ 64 - 100 ∧ (1 : Nat) = 2 ^ 0 ∧
    (__balloc_alloc (2 ^ 64 - 100) 1 100 100 [⟨0, 200⟩]).1 = 100 ∧
    (__balloc_alloc (2 ^ 64 - 100) 1 100 100 [⟨0, 200⟩]).2 ≠ [⟨0, 200⟩] := by decide

/-- C5 (amended): with `size > 0`, `align` a power of two, `from ≤ to` and
`to + align + size ≤ 2^64` (no 64-bit wrap-around in the search), a return
value of `to` means no allocation happened and the free set is returned
unchanged, and a successful return value is strictly below `to`; the
spec's concrete exhaustion example holds as stated. -/
theorem C5_sentinel (free : rb_tree) (size align f t k ret : Nat)
    (tr : rb_tree) (h : tree_inv free) (hsize : 0 < size)
    (halign : align = 2 ^ k) (hft : f ≤ t)
    (hbound : t + align + size ≤ 2 ^ 64)
    (heq : __balloc_alloc size align f t free = (ret, tr)) :
    (ret = t → tr = free) ∧ (ret ≠ t → ret < t) ∧
    __balloc_alloc 200 1 0 100 [⟨0, 100⟩] = (100, [⟨0, 100⟩]) := by
  subst halign
  have hres := balloc_alloc_spec size k f t free h hsize hft hbound ret tr heq
  refine ⟨?_, ?_, by decide⟩
  · intro hrt
    rcases hres with ⟨_, h2⟩ | ⟨_, _, c3, _⟩
    · exact h2
    · omega
  · intro hrt
    rcases hres with ⟨h1, _⟩ | ⟨_, _, c3, _⟩
    · exact absurd h1 hrt
    · omega

theorem C5_sentinel_witness :
    ((100 : Nat) = 100 → [(⟨0, 100⟩ : memory_node)] = [(⟨0, 100⟩ : memory_node)]) ∧
    ((100 : Nat) ≠ 100 → (100 : Nat) < 100) ∧
    __balloc_alloc 200 1 0 100 [⟨0, 100⟩] = (100, [⟨0, 100⟩]) :=
  C5_sentinel [⟨0, 100⟩] 200 1 0 100 0 100 [⟨0, 100⟩] (by decide) (by decide)
    (by norm_num) (by decide) (by decide) (by decide)

/-- C10 (counterexample): `alloc(size=2^64-4, align=1, from=6, to=13)` on
the free set `{[0,9)}` returns `6 ≠ to` (the wrapped 64-bit sum
`addr + size` passes the fit test), but 6 is not even a member of the
claimed feasible set — it violates `a + size ≤ to` — so it is not that
set's minimum. -/
theorem C10_first_fit_cex :
    tree_inv [(⟨0, 9⟩ : memory_node)] ∧ 0 < 2 ^ 64 - 4 ∧ (1 : Nat) = 2 ^ 0 ∧
    (__balloc_alloc (2 ^ 64 - 4) 1 6 13 [⟨0, 9⟩]).1 ≠ 13 ∧
    ¬((__balloc_alloc (2 ^ 64 - 4) 1 6 13 [⟨0, 9⟩]).1 + (2 ^ 64 - 4) ≤ 13) := by
  decide

/-- C10 (amended): with `size > 0`, `align` a power of two, `from ≤ to`
and `to + align + size ≤ 2^64`, a successful return value is itself a
feasible address (aligned, inside the window, block entirely free) and is
the minimum of all feasible addresses: the search is first-fit at the
lowest feasible aligned address. -/
theorem C10_first_fit (free : rb_tree) (size align f t k ret : Nat)
    (tr : rb_tree) (h : tree_inv free) (hsize : 0 < size)
    (halign : align = 2 ^ k) (hft : f ≤ t)
    (hbound : t + align + size ≤ 2 ^ 64)
    (heq : __balloc_alloc size align f t free = (ret, tr))
    (hfail : ret ≠ t) :
    (ret % align = 0 ∧ f ≤ ret ∧ ret + size ≤ t ∧
      (∀ x, ret ≤ x → x < ret + size → covers free x = true)) ∧
    (∀ a, a % align = 0 → f ≤ a → a + size ≤ t →
      (∀ x, a ≤ x → x < a + size → covers free x = true) → ret ≤ a) := by
  subst halign
  have hres := balloc_alloc_spec size k f t free h hsize hft hbound ret tr heq
  rcases hres with ⟨h1, _⟩ | ⟨c1, c2, c3, c4, _, _, c8⟩
  · exact absurd h1 hfail
  · exact ⟨⟨c1, c2, c3, c4⟩, c8⟩

theorem C10_first_fit_witness :
    (((16 : Nat) % 1 = 0 ∧ (0 : Nat) ≤ 16 ∧ 16 + 10 ≤ 100 ∧
      (∀ x, 16 ≤ x → x < 16 + 10 →
        covers [(⟨0, 8⟩ : memory_node), ⟨16, 100⟩] x = true)) ∧
    (∀ a, a % 1 = 0 → 0 ≤ a → a + 10 ≤ 100 →
      (∀ x, a ≤ x → x < a + 10 →
        covers [(⟨0, 8⟩ : memory_node), ⟨16, 100⟩] x = true) → 16 ≤ a)) :=
  C10_first_fit [⟨0, 8⟩, ⟨16, 100⟩] 10 1 0 100 0 16 [⟨0, 8⟩, ⟨26, 100⟩]
    (by decide) (by decide) (by norm_num) (by decide) (by decide) (by decide)
    (by decide)

/-! ### The bootstrap sequence -/

theorem remove_winv (l : rb_tree) (f t : Nat) (hw : tree_winv l) (hft : f ≤ t) :
    tree_winv (__balloc_remove_range l f t) := by
  rcases Nat.lt_or_ge f t with hlt | hge
  · exact (remove_range_spec l f t hw hlt).1
  · have htf : t = f := by omega
    subst htf
    rw [remove_self l t hw]
    exact hw

theorem remove_covers_mono (l : rb_tree) (f t x : Nat) (hw : tree_winv l)
    (hft : f ≤ t) (h : covers (__balloc_remove_range l f t) x = true) :
    covers l x = true := by
  rcases Nat.lt_or_ge f t with hlt | hge
  · exact (((remove_range_spec l f t hw hlt).2.1 x).mp h).1
  · have htf : t = f := by omega
    subst htf
    rwa [remove_self l t hw] at h

theorem remove_excludes (l : rb_tree) (f t x : Nat) (hw : tree_winv l)
    (hft : f ≤ t) (hx1 : f ≤ x) (hx2 : x < t) :
    covers (__balloc_remove_range l f t) x = false := by
  have hlt : f < t := by omega
  by_contra hne
  have hcov : covers (__balloc_remove_range l f t) x = true := by
    cases hc : covers (__balloc_remove_range l f t) x
    · exact absurd hc hne
    · rfl
  have := ((remove_range_spec l f t hw hlt).2.1 x).mp hcov
  exact this.2 ⟨hx1, hx2⟩

theorem add_winv (l : rb_tree) (f t : Nat) (hw : tree_winv l) (hft : f ≤ t) :
    tree_winv (__balloc_add_range l f t) :=
  (add_range_spec l f t hw hft).1

theorem seed_fold_winv (entries : List mboot_mmap_entry) :
    ∀ st : rb_tree × rb_tree, tree_winv st.2 →
      (∀ e ∈ entries, e.addr ≤ mmap_entry_end e) →
      tree_winv ((entries.foldl (fun st (e : mboot_mmap_entry) =>
        (__balloc_add_range st.1 e.addr (mmap_entry_end e),
         __balloc_add_range st.2 e.addr (mmap_entry_end e))) st).2) := by
  induction entries with
  | nil => exact fun st h _ => h
  | cons e es ih =>
    intro st h hmem
    rw [List.foldl_cons]
    exact ih _ (add_winv _ _ _ h (hmem e (by simp)))
      fun e' he' => hmem e' (List.mem_cons_of_mem _ he')

theorem remove_fold_spec (entries : List mboot_mmap_entry) :
    ∀ fr : rb_tree, tree_winv fr →
      (∀ e ∈ entries, e.addr + e.length < 2 ^ 64) →
      tree_winv (entries.foldl (fun fr e =>
        if e.type ≠ 1 then __balloc_remove_range fr e.addr (mmap_entry_end e)
        else fr) fr) ∧
      (∀ x, covers (entries.foldl (fun fr e =>
          if e.type ≠ 1 then __balloc_remove_range fr e.addr (mmap_entry_end e)
          else fr) fr) x = true → covers fr x = true) ∧
      (∀ e ∈ entries, e.type ≠ 1 → ∀ x, e.addr ≤ x → x < e.addr + e.length →
        covers (entries.foldl (fun fr e =>
          if e.type ≠ 1 then __balloc_remove_range fr e.addr (mmap_entry_end e)
          else fr) fr) x = false) := by
  induction entries with
  | nil =>
    intro fr h _
    exact ⟨h, fun x hx => hx, by simp⟩
  | cons e es ih =>
    intro fr h hwrap
    have hwrap_e : e.addr + e.length < 2 ^ 64 := hwrap e (by simp)
    have hend : mmap_entry_end e = e.addr + e.length := by
      unfold mmap_entry_end u64M
      exact Nat.mod_eq_of_lt hwrap_e
    have hle : e.addr ≤ mmap_entry_end e := by omega
    have hw1 : tree_winv (if e.type ≠ 1 then
        __balloc_remove_range fr e.addr (mmap_entry_end e) else fr) := by
      split
      · exact remove_winv _ _ _ h hle
      · exact h
    obtain ⟨ihW, ihM, ihE⟩ := ih _ hw1 fun e' he' => hwrap e' (List.mem_cons_of_mem _ he')
    rw [List.foldl_cons]
    refine ⟨ihW, ?_, ?_⟩
    · intro x hx
      have h1 := ihM x hx
      by_cases ht : e.type ≠ 1
      · rw [if_pos ht] at h1
        exact remove_covers_mono fr _ _ x h hle h1
      · rwa [if_neg ht] at h1
    · intro e' he' ht' x hx1 hx2
      rcases List.mem_cons.mp he' with rfl | he'
      · by_cases hc : covers (es.foldl (fun fr e =>
            if e.type ≠ 1 then __balloc_remove_range fr e.addr (mmap_entry_end e)
            else fr) (if e'.type ≠ 1 then
              __balloc_remove_range fr e'.addr (mmap_entry_end e') else fr)) x = true
        · exfalso
          have h1 := ihM x hc
          rw [if_pos ht'] at h1
          have h2 : covers (__balloc_remove_range fr e'.addr (mmap_entry_end e')) x
              = false :=
            remove_excludes fr _ _ x h hle hx1 (by omega)
          rw [h1] at h2
          exact absurd h2 (by simp)
        · simpa using hc
      · exact ihE e' he' ht' x hx1 hx2

theorem covers_false_remove (l : rb_tree) (f t x : Nat) (hw : tree_winv l)
    (hft : f ≤ t) (h : covers l x = false) :
    covers (__balloc_remove_range l f t) x = false := by
  by_cases hc : covers (__balloc_remove_range l f t) x = true
  · have h1 := remove_covers_mono l f t x hw hft hc
    rw [h] at h1
    exact absurd h1 (by simp)
  · simpa using hc

theorem parse_mmap_free_eq (entries : List mboot_mmap_entry)
    (kbegin kend mfirst msecond : Nat) :
    (balloc_parse_mmap entries kbegin kend mfirst msecond).2 =
      __balloc_remove_range
        (__balloc_remove_range
          (entries.foldl (fun fr e =>
              if e.type ≠ 1 then
                __balloc_remove_range fr e.addr (mmap_entry_end e)
              else fr)
            (__balloc_add_range
              ((entries.foldl (fun (st : rb_tree × rb_tree) e =>
                  (__balloc_add_range st.1 e.addr (mmap_entry_end e),
                   __balloc_add_range st.2 e.addr (mmap_entry_end e)))
                ([], [])).2)
              kbegin kend))
          mfirst msecond)
        kbegin kend := rfl

theorem setup_remove_exclusion (entries : List mboot_mmap_entry)
    (free0 : rb_tree) (kbegin kend mfirst msecond : Nat)
    (hw0 : tree_winv free0)
    (hwrap : ∀ e ∈ entries, e.addr + e.length < 2 ^ 64)
    (hk : kbegin ≤ kend) (hm : mfirst ≤ msecond) :
    (∀ e ∈ entries, e.type ≠ 1 → ∀ x, e.addr ≤ x → x < e.addr + e.length →
      covers (__balloc_remove_range (__balloc_remove_range
        (entries.foldl (fun fr e =>
          if e.type ≠ 1 then __balloc_remove_range fr e.addr (mmap_entry_end e)
          else fr) free0) mfirst msecond) kbegin kend) x = false) ∧
    (∀ x, mfirst ≤ x → x < msecond →
      covers (__balloc_remove_range (__balloc_remove_range
        (entries.foldl (fun fr e =>
          if e.type ≠ 1 then __balloc_remove_range fr e.addr (mmap_entry_end e)
          else fr) free0) mfirst msecond) kbegin kend) x = false) ∧
    (∀ x, kbegin ≤ x → x < kend →
      covers (__balloc_remove_range (__balloc_remove_range
        (entries.foldl (fun fr e =>
          if e.type ≠ 1 then __balloc_remove_range fr e.addr (mmap_entry_end e)
          else fr) free0) mfirst msecond) kbegin kend) x = false) := by
  obtain ⟨hW1, hM1, hE1⟩ := remove_fold_spec entries free0 hw0 hwrap
  refine ⟨?_, ?_, ?_⟩
  · intro e he ht x hx1 hx2
    exact covers_false_remove _ _ _ x (remove_winv _ _ _ hW1 hm) hk
      (covers_false_remove _ _ _ x hW1 hm (hE1 e he ht x hx1 hx2))
  · intro x hx1 hx2
    exact covers_false_remove _ _ _ x (remove_winv _ _ _ hW1 hm) hk
      (remove_excludes _ _ _ x hW1 hm hx1 hx2)
  · intro x hx1 hx2
    exact remove_excludes _ _ _ x (remove_winv _ _ _ hW1 hm) hk hx1 hx2

/-- C6 (counterexample): the map `{[0,100) type 1, (addr 5, length 2^64-1,
type 0)}` with kernel `[200,300)` and an empty module range.  The second
entry is not available (`type 0`) and covers address `5`, yet after
`balloc_parse_mmap` address `5` is still covered by the free tree: the
64-bit sum `addr + length` wraps to `4`, so both the seeding and the
removal of that entry use the empty-looking window `[5, 4)` and the
removal leaves `[0,100)` intact. -/
theorem C6_setup_exclusion_cex :
    ((⟨5, 2 ^ 64 - 1, 0⟩ : mboot_mmap_entry) ∈
        [(⟨0, 100, 1⟩ : mboot_mmap_entry), ⟨5, 2 ^ 64 - 1, 0⟩]) ∧
    (⟨5, 2 ^ 64 - 1, 0⟩ : mboot_mmap_entry).type ≠ 1 ∧
    (⟨5, 2 ^ 64 - 1, 0⟩ : mboot_mmap_entry).addr ≤ 5 ∧
    5 < (⟨5, 2 ^ 64 - 1, 0⟩ : mboot_mmap_entry).addr +
        (⟨5, 2 ^ 64 - 1, 0⟩ : mboot_mmap_entry).length ∧
    covers (balloc_parse_mmap [⟨0, 100, 1⟩, ⟨5, 2 ^ 64 - 1, 0⟩]
      200 300 0 0).2 5 = true := by
  decide

/-- C6 (amended): provided no map entry wraps around the 64-bit address
space (`addr + length < 2^64`) and the kernel and module ranges are
well-formed (`begin ≤ end`), after `balloc_parse_mmap` no address inside
a non-available entry, inside the module range, or inside the kernel
image is covered by the free tree — even when entries overlap with
conflicting types. -/
theorem C6_setup_exclusion (entries : List mboot_mmap_entry)
    (kbegin kend module_first module_second : Nat)
    (hwrap : ∀ e ∈ entries, e.addr + e.length < 2 ^ 64)
    (hk : kbegin ≤ kend) (hm : module_first ≤ module_second) :
    (∀ e ∈ entries, e.type ≠ 1 → ∀ x, e.addr ≤ x → x < e.addr + e.length →
      covers (balloc_parse_mmap entries kbegin kend
        module_first module_second).2 x = false) ∧
    (∀ x, module_first ≤ x → x < module_second →
      covers (balloc_parse_mmap entries kbegin kend
        module_first module_second).2 x = false) ∧
    (∀ x, kbegin ≤ x → x < kend →
      covers (balloc_parse_mmap entries kbegin kend
        module_first module_second).2 x = false) := by
  have h0 : tree_winv (__balloc_add_range ((entries.foldl
      (fun (st : rb_tree × rb_tree) e =>
        (__balloc_add_range st.1 e.addr (mmap_entry_end e),
         __balloc_add_range st.2 e.addr (mmap_entry_end e))) ([], [])).2)
      kbegin kend) :=
    add_winv _ _ _ (seed_fold_winv entries ([], []) (by simp [tree_winv])
      (fun e he => by
        have h1 := hwrap e he
        unfold mmap_entry_end u64M
        rw [Nat.mod_eq_of_lt h1]
        omega)) hk
  have hmain := setup_remove_exclusion entries _ kbegin kend
    module_first module_second h0 hwrap hk hm
  rw [parse_mmap_free_eq]
  exact hmain

theorem C6_setup_exclusion_witness :
    (∀ e ∈ [(⟨0, 100, 1⟩ : mboot_mmap_entry), ⟨30, 10, 2⟩], e.type ≠ 1 →
      ∀ x, e.addr ≤ x → x < e.addr + e.length →
        covers (balloc_parse_mmap [(⟨0, 100, 1⟩ : mboot_mmap_entry), ⟨30, 10, 2⟩]
          50 60 70 80).2 x = false) ∧
    (∀ x, 70 ≤ x → x < 80 →
      covers (balloc_parse_mmap [(⟨0, 100, 1⟩ : mboot_mmap_entry), ⟨30, 10, 2⟩]
        50 60 70 80).2 x = false) ∧
    (∀ x, 50 ≤ x → x < 60 →
      covers (balloc_parse_mmap [(⟨0, 100, 1⟩ : mboot_mmap_entry), ⟨30, 10, 2⟩]
        50 60 70 80).2 x = false) :=
  C6_setup_exclusion [⟨0, 100, 1⟩, ⟨30, 10, 2⟩] 50 60 70 80
    (by decide) (by decide) (by decide)

/-! ### Node-pool accounting -/

theorem foldl_push_reverse (l : List Nat) :
    ∀ acc : node_pool, l.foldl (fun p i => balloc_free_node i p) acc
      = l.reverse ++ acc := by
  induction l with
  | nil => intro acc; simp
  | cons a l ih =>
    intro acc
    rw [List.foldl_cons, ih]
    simp [balloc_free_node]

theorem balloc_setup_nodes_perm :
    balloc_setup_nodes.Perm (List.range BALLOC_MAX_RANGES) := by
  rw [balloc_setup_nodes, foldl_push_reverse, List.append_nil]
  exact List.reverse_perm (List.range BALLOC_MAX_RANGES)

open List in
theorem perm_add_shuffle (A P1 Q1 B L R C : List Nat) (i : Nat)
    (hq2 : (A ++ Q1).Perm (B ++ R)) (hp2 : (B ++ P1).Perm (C ++ L)) :
    (A ++ (P1 ++ i :: Q1)).Perm (i :: (C ++ (L ++ R))) := by
  calc A ++ (P1 ++ i :: Q1)
      = (A ++ P1) ++ i :: Q1 := by rw [List.append_assoc]
    _ ~ i :: ((A ++ P1) ++ Q1) := List.perm_middle
    _ = i :: (A ++ (P1 ++ Q1)) := by rw [List.append_assoc]
    _ ~ i :: (A ++ (Q1 ++ P1)) := (List.Perm.append_left A List.perm_append_comm).cons i
    _ = i :: ((A ++ Q1) ++ P1) := by rw [List.append_assoc]
    _ ~ i :: ((B ++ R) ++ P1) := (hq2.append_right P1).cons i
    _ = i :: (B ++ (R ++ P1)) := by rw [List.append_assoc]
    _ ~ i :: (B ++ (P1 ++ R)) := (List.Perm.append_left B List.perm_append_comm).cons i
    _ = i :: ((B ++ P1) ++ R) := by rw [List.append_assoc]
    _ ~ i :: ((C ++ L) ++ R) := (hp2.append_right R).cons i
    _ = i :: (C ++ (L ++ R)) := by rw [List.append_assoc]

open List in
theorem perm_pop_shuffle (p2 p0 X A R : List Nat) (j : Nat)
    (h : (p2 ++ X).Perm (p0 ++ (A ++ R))) :
    ((j :: p2) ++ X).Perm (p0 ++ (A ++ j :: R)) := by
  calc (j :: p2) ++ X
      = j :: (p2 ++ X) := rfl
    _ ~ j :: (p0 ++ (A ++ R)) := h.cons j
    _ = j :: ((p0 ++ A) ++ R) := by rw [List.append_assoc]
    _ ~ (p0 ++ A) ++ j :: R := List.perm_middle.symm
    _ = p0 ++ (A ++ j :: R) := by rw [List.append_assoc]

open List in
theorem perm_mid_shuffle (p q K F G : List Nat)
    (h : (p ++ F).Perm (q ++ G)) :
    ((p ++ K) ++ F).Perm ((q ++ K) ++ G) := by
  calc (p ++ K) ++ F
      ~ (K ++ p) ++ F := List.perm_append_comm.append_right F
    _ = K ++ (p ++ F) := by rw [List.append_assoc]
    _ ~ K ++ (q ++ G) := List.Perm.append_left K h
    _ = (K ++ q) ++ G := by rw [List.append_assoc]
    _ ~ (q ++ K) ++ G := List.perm_append_comm.append_right G

theorem absorb_prev_p_nodes (left : pooled_tree) (n : Nat × memory_node)
    (pool : node_pool) :
    (absorb_prev_p left n pool).2.1.1 = n.1 ∧
    ((absorb_prev_p left n pool).2.2 ++
      (absorb_prev_p left n pool).1.map Prod.fst).Perm
      (pool ++ left.map Prod.fst) := by
  unfold absorb_prev_p
  split
  next prev hL =>
    split
    next hge =>
      obtain ⟨l', rfl⟩ := List.getLast?_eq_some_iff.mp hL
      refine ⟨rfl, ?_⟩
      simp only [List.dropLast_concat, balloc_free_node, List.map_append,
        List.map_cons, List.map_nil, List.cons_append]
      simpa [List.append_assoc] using
        (List.perm_append_singleton prev.1 (pool ++ l'.map Prod.fst)).symm
    next => exact ⟨rfl, List.Perm.refl _⟩
  next hL => exact ⟨rfl, List.Perm.refl _⟩

theorem absorb_next_p_nodes (right : pooled_tree) (n : Nat × memory_node)
    (pool : node_pool) :
    (absorb_next_p right n pool).2.1.1 = n.1 ∧
    ((absorb_next_p right n pool).2.2 ++
      (absorb_next_p right n pool).1.map Prod.fst).Perm
      (pool ++ right.map Prod.fst) := by
  rcases right with _ | ⟨next, rest⟩
  · exact ⟨rfl, List.Perm.refl _⟩
  · simp only [absorb_next_p]
    split
    · refine ⟨rfl, ?_⟩
      simp only [balloc_free_node, List.map_cons, List.cons_append]
      exact List.perm_middle.symm
    · exact ⟨rfl, List.Perm.refl _⟩

theorem add_range_p_nodes (tree : pooled_tree) (pool : node_pool) (f t : Nat)
    (tr : pooled_tree) (pl : node_pool)
    (h : add_range_p tree pool f t = some (tr, pl)) :
    (pl ++ tr.map Prod.fst).Perm (pool ++ tree.map Prod.fst) := by
  rcases pool with _ | ⟨i, pool1⟩
  · exact absurd h (by simp [add_range_p, balloc_alloc_node])
  · simp only [add_range_p, balloc_alloc_node, Option.some.injEq,
      Prod.mk.injEq] at h
    obtain ⟨rfl, rfl⟩ := h
    set p := absorb_prev_p (tree.takeWhile fun x => decide (x.2.begin < f))
      (i, ⟨f, t⟩) pool1 with hpdef
    set q := absorb_next_p (tree.dropWhile fun x => decide (x.2.begin < f))
      p.2.1 p.2.2 with hqdef
    have hp1 : p.2.1.1 = i :=
      (absorb_prev_p_nodes (tree.takeWhile fun x => decide (x.2.begin < f))
        (i, ⟨f, t⟩) pool1).1
    have hp2 : (p.2.2 ++ p.1.map Prod.fst).Perm
        (pool1 ++ (tree.takeWhile fun x => decide (x.2.begin < f)).map Prod.fst) :=
      (absorb_prev_p_nodes (tree.takeWhile fun x => decide (x.2.begin < f))
        (i, ⟨f, t⟩) pool1).2
    have hq1 : q.2.1.1 = i :=
      ((absorb_next_p_nodes (tree.dropWhile fun x => decide (x.2.begin < f))
        p.2.1 p.2.2).1).trans hp1
    have hq2 : (q.2.2 ++ q.1.map Prod.fst).Perm
        (p.2.2 ++ (tree.dropWhile fun x => decide (x.2.begin < f)).map Prod.fst) :=
      (absorb_next_p_nodes (tree.dropWhile fun x => decide (x.2.begin < f))
        p.2.1 p.2.2).2
    have htree : tree = (tree.takeWhile fun x => decide (x.2.begin < f)) ++
        (tree.dropWhile fun x => decide (x.2.begin < f)) :=
      (List.takeWhile_append_dropWhile _ tree).symm
    rw [List.map_append, List.map_cons, hq1, htree, List.map_append]
    exact perm_add_shuffle q.2.2 (p.1.map Prod.fst) (q.1.map Prod.fst) p.2.2
      ((tree.takeWhile fun x => decide (x.2.begin < f)).map Prod.fst)
      ((tree.dropWhile fun x => decide (x.2.begin < f)).map Prod.fst)
      pool1 i hq2 hp2

theorem opt_add_nodes {acc : pooled_tree} {pool : node_pool} {c : Prop}
    [inst : Decidable c] {f t : Nat} {acc1 : pooled_tree} {pool1 : node_pool}
    (h : (if c then add_range_p acc pool f t else some (acc, pool))
      = some (acc1, pool1)) :
    (pool1 ++ acc1.map Prod.fst).Perm (pool ++ acc.map Prod.fst) := by
  split at h
  · exact add_range_p_nodes acc pool f t acc1 pool1 h
  · simp only [Option.some.injEq, Prod.mk.injEq] at h
    obtain ⟨rfl, rfl⟩ := h
    exact List.Perm.refl _

theorem remove_loop_p_nodes (f t : Nat) (rest : pooled_tree) :
    ∀ acc : pooled_tree, ∀ pool : node_pool, ∀ tr pl,
      remove_loop_p f t acc rest pool = some (tr, pl) →
      (pl ++ tr.map Prod.fst).Perm
        (pool ++ (acc.map Prod.fst ++ rest.map Prod.fst)) := by
  induction rest with
  | nil =>
    intro acc pool tr pl h
    simp only [remove_loop_p, Option.some.injEq, Prod.mk.injEq] at h
    obtain ⟨rfl, rfl⟩ := h
    rw [List.map_nil, List.append_nil]
  | cons ptr rest ih =>
    intro acc pool tr pl h
    rw [remove_loop_p] at h
    simp only [List.map_cons]
    split at h
    · split at h
      next => exact absurd h (by simp)
      next acc1 pool1 heq1 =>
        split at h
        next => exact absurd h (by simp)
        next acc2 pool2 heq2 =>
          have hrec := ih acc2 (balloc_free_node ptr.1 pool2) tr pl h
          have hcomb : (pool2 ++ acc2.map Prod.fst).Perm
              (pool ++ acc.map Prod.fst) :=
            (opt_add_nodes heq2).trans (opt_add_nodes heq1)
          have hcomb' : (pool2 ++ (acc2.map Prod.fst ++ rest.map Prod.fst)).Perm
              (pool ++ (acc.map Prod.fst ++ rest.map Prod.fst)) := by
            simpa [List.append_assoc] using
              hcomb.append_right (rest.map Prod.fst)
          exact hrec.trans (perm_pop_shuffle pool2 pool
            (acc2.map Prod.fst ++ rest.map Prod.fst) (acc.map Prod.fst)
            (rest.map Prod.fst) ptr.1 hcomb')
    · simp only [Option.some.injEq, Prod.mk.injEq] at h
      obtain ⟨rfl, rfl⟩ := h
      rw [List.map_append, List.map_cons]

theorem remove_range_p_nodes (tree : pooled_tree) (pool : node_pool)
    (f t : Nat) (tr : pooled_tree) (pl : node_pool)
    (h : remove_range_p tree pool f t = some (tr, pl)) :
    (pl ++ tr.map Prod.fst).Perm (pool ++ tree.map Prod.fst) := by
  have h1 := remove_loop_p_nodes f t
    (tree.dropWhile fun x => decide (x.2.end_ ≤ f))
    (tree.takeWhile fun x => decide (x.2.end_ ≤ f)) pool tr pl h
  rwa [← List.map_append, List.takeWhile_append_dropWhile] at h1

theorem alloc_success_p_nodes (size : Nat) (acc rest : pooled_tree)
    (pool : node_pool) (ptr : Nat × memory_node) (addr a : Nat)
    (tr : pooled_tree) (pl : node_pool)
    (h : alloc_success_p size acc rest pool ptr addr = some (a, tr, pl)) :
    (pl ++ tr.map Prod.fst).Perm
      (pool ++ (acc.map Prod.fst ++ ptr.1 :: rest.map Prod.fst)) := by
  unfold alloc_success_p at h
  split at h
  next => exact absurd h (by simp)
  next r1 pool1 heq1 =>
    split at h
    next => exact absurd h (by simp)
    next r2 pool2 heq2 =>
      simp only [Option.some.injEq, Prod.mk.injEq] at h
      obtain ⟨-, rfl, rfl⟩ := h
      have hcomb : (pool2 ++ r2.map Prod.fst).Perm
          (pool ++ (acc.map Prod.fst ++ rest.map Prod.fst)) := by
        have h1 := (opt_add_nodes heq2).trans (opt_add_nodes heq1)
        rwa [List.map_append] at h1
      exact perm_pop_shuffle pool2 pool (r2.map Prod.fst) (acc.map Prod.fst)
        (rest.map Prod.fst) ptr.1 hcomb

theorem alloc_loop_p_nodes (size align f t : Nat) (rest : pooled_tree) :
    ∀ acc : pooled_tree, ∀ pool : node_pool, ∀ a tr pl,
      alloc_loop_p size align f t acc rest pool = some (a, tr, pl) →
      (pl ++ tr.map Prod.fst).Perm
        (pool ++ (acc.map Prod.fst ++ rest.map Prod.fst)) := by
  induction rest with
  | nil =>
    intro acc pool a tr pl h
    simp only [alloc_loop_p, Option.some.injEq, Prod.mk.injEq] at h
    obtain ⟨-, rfl, rfl⟩ := h
    rw [List.map_nil, List.append_nil]
  | cons ptr rest ih =>
    intro acc pool a tr pl h
    rw [alloc_loop_p] at h
    simp only [List.map_cons]
    split at h
    · split at h
      · exact alloc_success_p_nodes size acc rest pool ptr _ a tr pl h
      · have h1 := ih (acc ++ [ptr]) pool a tr pl h
        rw [List.map_append, List.map_cons, List.map_nil] at h1
        simpa [List.append_assoc] using h1
    · simp only [Option.some.injEq, Prod.mk.injEq] at h
      obtain ⟨-, rfl, rfl⟩ := h
      rw [List.map_append, List.map_cons]

theorem alloc_p_nodes (size align f t : Nat) (free_ranges : pooled_tree)
    (pool : node_pool) (a : Nat) (tr : pooled_tree) (pl : node_pool)
    (h : alloc_p size align f t free_ranges pool = some (a, tr, pl)) :
    (pl ++ tr.map Prod.fst).Perm (pool ++ free_ranges.map Prod.fst) := by
  have h1 := alloc_loop_p_nodes size align f t
    (free_ranges.dropWhile fun x => decide (x.2.end_ ≤ f))
    (free_ranges.takeWhile fun x => decide (x.2.end_ ≤ f)) pool a tr pl h
  rwa [← List.map_append, List.takeWhile_append_dropWhile] at h1

theorem apply_op_nodes (st st' : balloc_state) (op : balloc_op)
    (h : apply_op st op = some st') :
    (state_nodes st').Perm (state_nodes st) := by
  cases op with
  | add_known f t =>
    rw [apply_op] at h
    split at h
    next => exact absurd h (by simp)
    next tr pool heq =>
      simp only [Option.some.injEq] at h
      subst h
      simp only [state_nodes]
      exact (add_range_p_nodes _ _ _ _ _ _ heq).append_right _
  | add_free f t =>
    rw [apply_op] at h
    split at h
    next => exact absurd h (by simp)
    next tr pool heq =>
      simp only [Option.some.injEq] at h
      subst h
      simp only [state_nodes]
      exact perm_mid_shuffle _ _ _ _ _ (add_range_p_nodes _ _ _ _ _ _ heq)
  | remove_free f t =>
    rw [apply_op] at h
    split at h
    next => exact absurd h (by simp)
    next tr pool heq =>
      simp only [Option.some.injEq] at h
      subst h
      simp only [state_nodes]
      exact perm_mid_shuffle _ _ _ _ _ (remove_range_p_nodes _ _ _ _ _ _ heq)
  | alloc_free size align f t =>
    rw [apply_op] at h
    split at h
    next => exact absurd h (by simp)
    next a tr pool heq =>
      simp only [Option.some.injEq] at h
      subst h
      simp only [state_nodes]
      exact perm_mid_shuffle _ _ _ _ _ (alloc_p_nodes _ _ _ _ _ _ _ _ _ heq)

theorem foldl_step_none (ops : List balloc_op) :
    ops.foldl step_ops none = none := by
  induction ops with
  | nil => rfl
  | cons op ops ih =>
    rw [List.foldl_cons]
    exact ih

theorem run_from_nodes (ops : List balloc_op) :
    ∀ st st' : balloc_state, ops.foldl step_ops (some st) = some st' →
      (state_nodes st').Perm (state_nodes st) := by
  induction ops with
  | nil =>
    intro st st' h
    simp only [List.foldl_nil, Option.some.injEq] at h
    subst h
    exact List.Perm.refl _
  | cons op ops ih =>
    intro st st' h
    rw [List.foldl_cons] at h
    rcases hap : apply_op st op with _ | st1
    · rw [show step_ops (some st) op = apply_op st op from rfl, hap,
        foldl_step_none] at h
      exact absurd h (by simp)
    · rw [show step_ops (some st) op = apply_op st op from rfl, hap] at h
      exact (ih st1 st' h).trans (apply_op_nodes st st1 op hap)

/-- C8: from the freshly initialised pool (`balloc_setup_nodes` puts all
128 slots on the free list, both trees empty) and after any completed
sequence of public calls — `__balloc_add_range` on either tree
(covering `balloc_free`), `__balloc_remove_range`, `__balloc_alloc`;
`balloc_parse_mmap` performs the fixed call sequence
`balloc_parse_mmap_ops` — the nodes linked into the known tree plus
those linked into the free tree plus those on the pool's free list
number exactly `BALLOC_MAX_RANGES = 128`, and no pool slot sits in more
than one of the three places. -/
theorem C8_pool_conservation (ops : List balloc_op) (st : balloc_state)
    (h : run_ops ops = some st) :
    st.memory_map.length + st.free_ranges.length + st.pool.length
        = BALLOC_MAX_RANGES ∧
    (state_nodes st).Nodup := by
  have hperm : (state_nodes st).Perm (state_nodes init_state) :=
    run_from_nodes ops init_state st h
  have hinit : (state_nodes init_state).Perm (List.range BALLOC_MAX_RANGES) := by
    simpa [state_nodes, init_state] using balloc_setup_nodes_perm
  have hall := hperm.trans hinit
  refine ⟨?_, (hall.nodup_iff).mpr (List.nodup_range _)⟩
  have hlen := hall.length_eq
  simp only [state_nodes, List.length_append, List.length_map,
    List.length_range] at hlen
  omega

theorem C8_pool_conservation_witness :
    ((⟨(List.range 127).reverse, [], [(127, ⟨0, 10⟩)]⟩ :
        balloc_state).memory_map.length +
      (⟨(List.range 127).reverse, [], [(127, ⟨0, 10⟩)]⟩ :
        balloc_state).free_ranges.length +
      (⟨(List.range 127).reverse, [], [(127, ⟨0, 10⟩)]⟩ :
        balloc_state).pool.length = BALLOC_MAX_RANGES) ∧
    (state_nodes (⟨(List.range 127).reverse, [], [(127, ⟨0, 10⟩)]⟩ :
        balloc_state)).Nodup :=
  C8_pool_conservation [.add_free 0 10]
    ⟨(List.range 127).reverse, [], [(127, ⟨0, 10⟩)]⟩ (by decide)

